import Mathlib

/-!
# Verification of the dryad node/tree core

Shallow embedding of the dryad library (`include/dryad/*.hpp`): the intrusive
node link protocol, child insertion, traversal, the open-addressing hash
table, the arena allocator, the symbol interner, and the hash forest.

Machine pointers become natural-number node ids; memory becomes an explicit
store mapping ids to node records.  The tagged link word `_ptr` of
`dryad::node` (pointer plus is-parent bit) becomes `Option (Bool × Nat)`:
`none` for an unlinked node, `some (true, p)` for a parent pointer,
`some (false, s)` for a sibling pointer.  Color bits are kept separately and
play no role in the claims.
-/

namespace Dryad

/-- One AST node, mirroring the fields of `dryad::node`:
`_ptr` (split into the pointer-or-null with its is-parent tag),
`_is_container`, `_kind`, and the user-data slot that containers use for the
first-child pointer (`_user_data_ptr`).  `data` stands for the per-node
scalar user data (`_user_data16`/`_user_data32`) that concrete node types
repurpose. -/
structure Node where
  next : Option (Bool × Nat) := none
  isContainer : Bool := false
  kind : Nat := 0
  firstChild : Option Nat := none
  data : Nat := 0
deriving DecidableEq, Repr

/-- Memory: every address holds a node record (a fresh address holds the
default, unlinked record, as written by the `node` constructor). -/
def Store := Nat → Node

/-- Pointwise store update. -/
def Store.set (s : Store) (i : Nat) (n : Node) : Store :=
  fun j => if j = i then n else s j

/-- `node::is_linked_in_tree`: the link word is non-null. -/
def isLinked (s : Store) (i : Nat) : Bool :=
  (s i).next.isSome

/-- `node::next_node`: the pointer part of the link word. -/
def nextNode (s : Store) (i : Nat) : Option Nat :=
  (s i).next.map Prod.snd

/-- `node::next_node_is_parent`: the tag bit of the link word. -/
def nextIsParent (s : Store) (i : Nat) : Bool :=
  match (s i).next with
  | some (b, _) => b
  | none => false

/-- The loop body of `node::parent`: follow sibling pointers until the
is-parent bit is set, then return that pointer.  Fuel bounds the chase; the
C++ loop relies on the chain invariant for termination. -/
def parentAux (s : Store) : Nat → Nat → Option Nat
  | 0, _ => none
  | fuel + 1, cur =>
    match (s cur).next with
    | none => none
    | some (true, p) => some p
    | some (false, sib) => parentAux s fuel sib

/-- `node::parent`: null for an unlinked node, otherwise chase the chain. -/
def parent (s : Store) (i : Nat) (fuel : Nat) : Option Nat :=
  if isLinked s i then parentAux s fuel i else none

/-- `_children_range::empty`: a non-container has no children; a container is
empty iff its first-child slot is null. -/
def childrenEmpty (s : Store) (c : Nat) : Bool :=
  if (s c).isContainer then (s c).firstChild.isNone else true

/-- The walk of `_children_range::iterator`: from the first child, follow
`next_node` (ignoring the tag bit) until reaching the container itself (the
last child's link is the parent pointer back to the container). -/
def childrenAux (s : Store) (stop : Nat) : Nat → Nat → List Nat
  | 0, _ => []
  | fuel + 1, cur =>
    if cur = stop then []
    else
      cur :: (match nextNode s cur with
              | some nxt => childrenAux s stop fuel nxt
              | none => [])

/-- `node::children` as a list, in iteration order. -/
def childrenList (s : Store) (c : Nat) (fuel : Nat) : List Nat :=
  if childrenEmpty s c then []
  else
    match (s c).firstChild with
    | some f => childrenAux s c fuel f
    | none => []

/-- `node::set_next_sibling` / `set_next_parent` / `unlink`, as one helper. -/
def setNext (s : Store) (i : Nat) (v : Option (Bool × Nat)) : Store :=
  s.set i { s i with next := v }

/-- Writing the container's first-child user-data slot. -/
def setFirstChild (s : Store) (c : Nat) (v : Option Nat) : Store :=
  s.set c { s c with firstChild := v }

/-- `container_node::insert_child_after(pos, child)`.  `pos = none` is the
insert-at-front case: the child's link becomes a sibling pointer to the old
first child, or a parent pointer to the container when there was none, and
the first-child slot is updated.  Otherwise the child copies `pos`'s link
(`copy_next`) and `pos` points at the child as sibling. -/
def insertChildAfter (s : Store) (c : Nat) (pos : Option Nat) (child : Nat) : Store :=
  match pos with
  | none =>
    let s1 :=
      match (s c).firstChild with
      | some first => setNext s child (some (false, first))
      | none => setNext s child (some (true, c))
    setFirstChild s1 c (some child)
  | some p =>
    let s1 := setNext s child ((s p).next)
    setNext s1 p (some (false, child))

/-- `tree::set_root`: establish the self-loop parent pointer. -/
def setRoot (s : Store) (r : Nat) : Store :=
  setNext s r (some (true, r))

/-- Emptiness test of `node::_sibling_range`, following the source: both
`begin()` and `end()` are the null iterator when the node is unlinked or its
link points at itself; otherwise `begin()` is one increment past the node
and `end()` is the node, so the range is empty iff that increment returns to
the node itself. -/
def siblingsEmpty (s : Store) (i : Nat) : Bool :=
  match (s i).next with
  | none => true
  | some (isPar, j) =>
    if j = i then true
    else
      -- begin() = ++end(): one step of `_sibling_range::iterator::increment`
      -- from the node itself.
      let first :=
        if isPar then
          -- pointing at the parent: restart at the parent's first child
          match (s j).firstChild with
          | some f => f
          | none => j
        else j
      first = i

/-- The empty store: every address holds a fresh, unlinked node (this is what
`node`'s constructor writes). -/
def emptyStore : Store := fun _ => {}

/-- Mark an address as a container (what `container_node`'s constructor does
on top of the base constructor). -/
def mkContainer (s : Store) (c : Nat) (kind : Nat) : Store :=
  s.set c { isContainer := true, kind := kind }

/-!
## The child chain invariant

`container_node` keeps its children as a singly linked list threaded through
the children's link words: the container's user-data slot holds the first
child, each child points at the next sibling, and the last child holds a
parent-tagged pointer back to the container.
-/

/-- The sibling links of the children `l` of container `c`, in order: each
child points at the next with a sibling-tagged link, the last points back at
`c` with a parent-tagged link. -/
def links (s : Store) (c : Nat) : List Nat → Prop
  | [] => True
  | [k] => (s k).next = some (true, c)
  | k :: k' :: rest => (s k).next = some (false, k') ∧ links s c (k' :: rest)

/-- The full well-formedness of container `c` with children `l`. -/
structure ChildChain (s : Store) (c : Nat) (l : List Nat) : Prop where
  container : (s c).isContainer = true
  first : (s c).firstChild = l.head?
  chain : links s c l
  nodup : l.Nodup
  notSelf : c ∉ l

/-- `insert_child_after` at position `p` corresponds to splicing the new
child right after the first occurrence of `p` in the abstract list. -/
def insertAfterL (p child : Nat) : List Nat → List Nat
  | [] => []
  | k :: rest => if k = p then k :: child :: rest else k :: insertAfterL p child rest

/-- The abstract effect of one `insert_child_after` call on the child list. -/
def absInsert (l : List Nat) (pos : Option Nat) (child : Nat) : List Nat :=
  match pos with
  | none => child :: l
  | some p => insertAfterL p child l

/-- Folding a sequence of `insert_child_after` calls over the store. -/
def applyInserts (c : Nat) : Store → List (Option Nat × Nat) → Store
  | s, [] => s
  | s, (pos, ch) :: ops => applyInserts c (insertChildAfter s c pos ch) ops

/-- The abstract child list obtained by the same sequence. -/
def absApply : List Nat → List (Option Nat × Nat) → List Nat
  | l, [] => l
  | l, (pos, ch) :: ops => absApply (absInsert l pos ch) ops

/-- Validity of an insertion sequence: each inserted child is currently
unlinked (the `insert_child_after` precondition), is not the container
itself, and a `some`-position names a current child. -/
def ValidInserts (c : Nat) : Store → List Nat → List (Option Nat × Nat) → Prop
  | _, _, [] => True
  | s, l, (pos, ch) :: ops =>
    (s ch).next = none ∧ ch ≠ c
      ∧ (∀ p, pos = some p → p ∈ l)
      ∧ ValidInserts c (insertChildAfter s c pos ch) (absInsert l pos ch) ops

/-!
## Traversal

`traverse` (tree.hpp) produces `(event, node)` pairs by chasing the single
link word: from `enter` at a container it moves to the first child; from a
`leaf`/`exit` it follows the link — a sibling pointer yields the sibling's
`enter`/`leaf`, a parent pointer yields the parent's `exit`, and the root's
self-loop ends the traversal (iterator becomes the default `(leaf, null)`).
-/

/-- `dryad::traverse_event`. -/
inductive TEvent where
  | enter
  | exit
  | leaf
deriving DecidableEq, Repr

/-- `_traverse_range::iterator`: current event and current node pointer (the
default-constructed iterator is `(leaf, nullptr)`). -/
structure TIter where
  ev : TEvent := TEvent.leaf
  cur : Option Nat := none
deriving DecidableEq, Repr

/-- `_traverse_range::iterator::increment`, straight from the source.  The
`none` fall-backs mark states where the C++ code would dereference a null
pointer (they are unreachable from a well-formed range). -/
def tinc (s : Store) : TIter → TIter
  | ⟨ev, none⟩ => ⟨ev, none⟩
  | ⟨ev, some cur⟩ =>
    if ev = TEvent.enter then
      if childrenEmpty s cur then ⟨TEvent.exit, some cur⟩
      else
        match (s cur).firstChild with
        | some fc =>
          if (s fc).isContainer then ⟨TEvent.enter, some fc⟩ else ⟨TEvent.leaf, some fc⟩
        | none => ⟨TEvent.exit, some cur⟩
    else
      match (s cur).next with
      | some (isPar, tgt) =>
        if tgt = cur then ⟨TEvent.leaf, none⟩
        else if isPar then ⟨TEvent.exit, some tgt⟩
        else if (s tgt).isContainer then ⟨TEvent.enter, some tgt⟩
        else ⟨TEvent.leaf, some tgt⟩
      | none => ⟨TEvent.leaf, none⟩

/-- Collect the `(event, node)` pairs of the half-open iterator range
`[it, endIt)`, dereferencing and incrementing as the C++ `for` loop does.
Fuel bounds the loop. -/
def traverseFrom (s : Store) (endIt : TIter) : Nat → TIter → List (TEvent × Nat)
  | 0, _ => []
  | fuel + 1, it =>
    if it = endIt then []
    else
      match it.cur with
      | some n => (it.ev, n) :: traverseFrom s endIt fuel (tinc s it)
      | none => []

/-- `traverse(node)` for a non-null linked node, as the list of events of the
range built by `_traverse_range::_traverse_range`: for a container the range
is `[(enter, n) .. ++(exit, n))`, for a non-container `[(leaf, n) .. ++(leaf, n))`. -/
def traverseList (s : Store) (n : Nat) (fuel : Nat) : List (TEvent × Nat) :=
  if (s n).isContainer then
    traverseFrom s (tinc s ⟨TEvent.exit, some n⟩) fuel ⟨TEvent.enter, some n⟩
  else
    traverseFrom s (tinc s ⟨TEvent.leaf, some n⟩) fuel ⟨TEvent.leaf, some n⟩

mutual
/-- Abstract description of a subtree laid out in the store: a non-container
node or a container with a list of children. -/
inductive TreeShape where
  | leaf : Nat → TreeShape
  | node : Nat → TreeList → TreeShape
/-- A list of sibling subtrees. -/
inductive TreeList where
  | nil : TreeList
  | cons : TreeShape → TreeList → TreeList
end

def rootId : TreeShape → Nat
  | TreeShape.leaf i => i
  | TreeShape.node i _ => i

/-- Whether the shape's root is a container. -/
def isNodeShape : TreeShape → Bool
  | TreeShape.leaf _ => false
  | TreeShape.node _ _ => true

/-- The first-child pointer a container with these children must hold. -/
def headIdL : TreeList → Option Nat
  | TreeList.nil => none
  | TreeList.cons t _ => some (rootId t)

/-- The link word a child must hold given the rest of its sibling list and
its parent: a sibling pointer to the next subtree's root, or a parent-tagged
pointer back to the parent for the last child. -/
def linkOf : TreeList → Nat → Bool × Nat
  | TreeList.nil, par => (true, par)
  | TreeList.cons t _, _ => (false, rootId t)

mutual
/-- The subtree `t` is laid out in store `s`, with the root's link word equal
to `nx`. -/
def Realized (s : Store) : TreeShape → Bool × Nat → Prop
  | TreeShape.leaf i, nx => (s i).isContainer = false ∧ (s i).next = some nx
  | TreeShape.node i cs, nx =>
    (s i).isContainer = true ∧ (s i).next = some nx
      ∧ (s i).firstChild = headIdL cs ∧ RealizedL s cs i
/-- All subtrees of the sibling list are laid out, chained to each other and
finally back to the parent. -/
def RealizedL (s : Store) : TreeList → Nat → Prop
  | TreeList.nil, _ => True
  | TreeList.cons t ts, par => Realized s t (linkOf ts par) ∧ RealizedL s ts par
end

mutual
/-- The specified traversal of a subtree: `enter`, the children's events,
`exit` for a container; a single `leaf` event otherwise.  This recursive
bracketing is the depth-first event sequence of the claim: each container
contributes exactly one `enter` before all of its children's events and one
`exit` after all of them, at matching nesting depth. -/
def flat : TreeShape → List (TEvent × Nat)
  | TreeShape.leaf i => [(TEvent.leaf, i)]
  | TreeShape.node i cs => (TEvent.enter, i) :: (flatL cs ++ [(TEvent.exit, i)])
/-- Concatenated traversals of a sibling list. -/
def flatL : TreeList → List (TEvent × Nat)
  | TreeList.nil => []
  | TreeList.cons t ts => flat t ++ flatL ts
end

mutual
/-- All node ids of a subtree. -/
def ids : TreeShape → List Nat
  | TreeShape.leaf i => [i]
  | TreeShape.node i cs => i :: idsL cs
def idsL : TreeList → List Nat
  | TreeList.nil => []
  | TreeList.cons t ts => ids t ++ idsL ts
end

mutual
/-- Ids of the container nodes of a subtree. -/
def containerIds : TreeShape → List Nat
  | TreeShape.leaf _ => []
  | TreeShape.node i cs => i :: containerIdsL cs
def containerIdsL : TreeList → List Nat
  | TreeList.nil => []
  | TreeList.cons t ts => containerIds t ++ containerIdsL ts
end

mutual
/-- Ids of the non-container nodes of a subtree. -/
def leafIds : TreeShape → List Nat
  | TreeShape.leaf i => [i]
  | TreeShape.node _ cs => leafIdsL cs
def leafIdsL : TreeList → List Nat
  | TreeList.nil => []
  | TreeList.cons t ts => leafIds t ++ leafIdsL ts
end

/-- The iterator at which the traversal of subtree `t` starts. -/
def startIter : TreeShape → TIter
  | TreeShape.leaf i => ⟨TEvent.leaf, some i⟩
  | TreeShape.node i _ => ⟨TEvent.enter, some i⟩

/-- The iterator at the last event of subtree `t`. -/
def endIter : TreeShape → TIter
  | TreeShape.leaf i => ⟨TEvent.leaf, some i⟩
  | TreeShape.node i _ => ⟨TEvent.exit, some i⟩

/-- Where the iterator moves after finishing a subtree whose root's link is
`nx`, leaving node `cur` (the increment's sibling/parent/done case split). -/
def contIter (s : Store) (nx : Bool × Nat) (cur : Nat) : TIter :=
  if nx.2 = cur then ⟨TEvent.leaf, none⟩
  else if nx.1 then ⟨TEvent.exit, some nx.2⟩
  else if (s nx.2).isContainer then ⟨TEvent.enter, some nx.2⟩
  else ⟨TEvent.leaf, some nx.2⟩

/-- The iterator from which a sibling list's events start (for an empty list,
directly the parent's exit). -/
def startIterL : TreeList → Nat → TIter
  | TreeList.nil, par => ⟨TEvent.exit, some par⟩
  | TreeList.cons t _, _ => startIter t

/-!
## The open-addressing hash table (`_detail/hash_table.hpp`)

A fixed-capacity power-of-two table with linear probing.  `Traits` becomes an
explicit record of functions; `fill_removed`/`fill_unoccupied` write the
per-entry constants `removed`/`unoccupied`.  Slot indices are reduced with
`&&& (capacity - 1)` exactly as the source does.
-/

/-- The `Traits` parameter of `_detail::hash_table`. -/
structure HashTraits (α : Type) where
  isUnoccupied : α → Bool
  removed : α
  unoccupied : α
  isEq : α → α → Bool
  hash : α → Nat

/-- The table state: the slot array (its length is `_table_capacity`) and
`_table_size`. -/
structure HashTable (α : Type) where
  table : List α
  size : Nat

/-- A freshly constructed table: null table, zero capacity and size. -/
def emptyHT {α : Type} : HashTable α := { table := [], size := 0 }

/-- The probe loop of `hash_table::lookup_entry`: at each index, an
unoccupied slot yields an invalid handle `(idx, false)`, an equal entry
yields a valid handle `(idx, true)`, otherwise advance by one modulo the
capacity.  Fuel bounds the loop (the source relies on the
`size < capacity` precondition for termination); `none` models
non-termination. -/
def lookupEntryAux {α : Type} (tr : HashTraits α) (t : List α) (key : α) :
    Nat → Nat → Option (Nat × Bool)
  | 0, _ => none
  | fuel + 1, idx =>
    let e := t.getD idx tr.unoccupied
    if tr.isUnoccupied e then some (idx, false)
    else if tr.isEq e key then some (idx, true)
    else lookupEntryAux tr t key fuel ((idx + 1) &&& (t.length - 1))

/-- `hash_table::lookup_entry`, probing from `hash(key) & (capacity - 1)`. -/
def lookupEntry {α : Type} (tr : HashTraits α) (ht : HashTable α) (key : α) :
    Option (Nat × Bool) :=
  lookupEntryAux tr ht.table key ht.table.length (tr.hash key &&& (ht.table.length - 1))

/-- `entry_handle::create`: write the value into the slot and bump the size. -/
def create {α : Type} (ht : HashTable α) (idx : Nat) (v : α) : HashTable α :=
  { table := ht.table.set idx v, size := ht.size + 1 }

/-- `entry_handle::remove`: `fill_removed` one slot and drop the size. -/
def removeAt {α : Type} (tr : HashTraits α) (ht : HashTable α) (idx : Nat) : HashTable α :=
  { table := ht.table.set idx tr.removed, size := ht.size - 1 }

/-- `hash_table::lookup` (const): null when the table is empty, otherwise the
found entry's value or null. -/
def lookupHT {α : Type} (tr : HashTraits α) (ht : HashTable α) (key : α) : Option α :=
  if ht.size = 0 then none
  else
    match lookupEntry tr ht key with
    | some (idx, true) => some (ht.table.getD idx tr.unoccupied)
    | _ => none

/-- `hash_table::should_rehash`: load factor at least one half. -/
def shouldRehash {α : Type} (ht : HashTable α) : Bool :=
  ht.table.length / 2 ≤ ht.size

/-- `hash_table::to_table_capacity`: at least `MinTableSize`, else the next
power of two (`1 << (64 - clzll(cap - 1))`, i.e. `2 ^ bitlength (cap - 1)`). -/
def toTableCapacity (minSize cap : Nat) : Nat :=
  if cap < minSize then minSize
  else 2 ^ Nat.size (cap - 1)

/-- The reinsertion loop of `hash_table::rehash`: every occupied entry of the
old table, in slot order, is placed at the slot its probe sequence finds in
the new table. -/
def insertList {α : Type} (tr : HashTraits α) : HashTable α → List α → HashTable α
  | acc, [] => acc
  | acc, e :: es =>
    insertList tr
      (if tr.isUnoccupied e then acc
       else
         match lookupEntry tr acc e with
         | some (idx, _) => create acc idx e
         | none => acc)
      es

/-- `hash_table::rehash(resource, new_capacity)`: no-op unless strictly
growing; otherwise allocate a fresh `fill_unoccupied`-initialized table of the
new capacity and re-insert every occupied entry. -/
def rehashHT {α : Type} (tr : HashTraits α) (ht : HashTable α) (newCap : Nat) : HashTable α :=
  if newCap ≤ ht.table.length then ht
  else insertList tr { table := List.replicate newCap tr.unoccupied, size := 0 } ht.table

/-- `lookup_entry` followed by `create` on a not-found handle (a found handle
leaves the table unchanged; a non-terminating probe cannot occur under the
`size < capacity` precondition). -/
def insertStep {α : Type} (tr : HashTraits α) (ht : HashTable α) (k : α) : HashTable α :=
  match lookupEntry tr ht k with
  | some (idx, false) => create ht idx k
  | some (_, true) => ht
  | none => ht

/-- One insertion at the documented call pattern: rehash (to the doubled
capacity, as the in-tree callers do) whenever `should_rehash()` holds, then
`lookup_entry` and `create` on a not-found handle. -/
def insertOp {α : Type} (tr : HashTraits α) (minSize : Nat) (ht : HashTable α) (k : α) :
    HashTable α :=
  insertStep tr
    (if shouldRehash ht then
      rehashHT tr ht (toTableCapacity minSize (2 * ht.table.length)) else ht) k

/-- Position of the `x`-th probe step starting from (reduced) index `h`. -/
def probeAt (cap h x : Nat) : Nat := (h + x) % cap

/-- A slot is occupied (neither unoccupied-fill nor removed-fill, in the
sense of `is_unoccupied`). -/
def slotOcc {α : Type} (tr : HashTraits α) (t : List α) (p : Nat) : Prop :=
  tr.isUnoccupied (t.getD p tr.unoccupied) = false

/-- The probe for `key` stops at slot `p` (unoccupied or equal). -/
def stopAt {α : Type} (tr : HashTraits α) (t : List α) (key : α) (p : Nat) : Prop :=
  tr.isUnoccupied (t.getD p tr.unoccupied) = true
    ∨ tr.isEq (t.getD p tr.unoccupied) key = true

instance stopAtDecidable {α : Type} (tr : HashTraits α) (t : List α) (key : α) (p : Nat) :
    Decidable (stopAt tr t key p) := by
  unfold stopAt
  exact inferInstance

instance slotOccDecidable {α : Type} (tr : HashTraits α) (t : List α) (p : Nat) :
    Decidable (slotOcc tr t p) := by
  unfold slotOcc
  exact inferInstance

/-- A value is present: some occupied slot holds an entry equal to it. -/
def present {α : Type} (tr : HashTraits α) (ht : HashTable α) (k : α) : Prop :=
  ∃ j < ht.table.length, slotOcc tr ht.table j
    ∧ tr.isEq (ht.table.getD j tr.unoccupied) k = true

/-- `lookup_entry` returns a valid handle for the key. -/
def foundIn {α : Type} (tr : HashTraits α) (ht : HashTable α) (k : α) : Prop :=
  ∃ j, lookupEntry tr ht k = some (j, true)

/-- Well-formedness of a table, the invariant the callers maintain:
power-of-two capacity, `size` counts the occupied slots and is strictly below
capacity, every stored entry is reachable from its hash by an
all-occupied probe prefix, entries are reflexive for `is_equal`, and no two
distinct slots hold equal entries. -/
structure TableWF {α : Type} (tr : HashTraits α) (ht : HashTable α) : Prop where
  cap_pow : ∃ m, ht.table.length = 2 ^ m
  size_eq : ht.size = ht.table.countP (fun e => !tr.isUnoccupied e)
  size_lt : ht.size < ht.table.length
  stored_path : ∀ j < ht.table.length, slotOcc tr ht.table j →
    ∃ d < ht.table.length,
      j = probeAt ht.table.length (tr.hash (ht.table.getD j tr.unoccupied) % ht.table.length) d
        ∧ ∀ y < d, slotOcc tr ht.table
            (probeAt ht.table.length (tr.hash (ht.table.getD j tr.unoccupied) % ht.table.length) y)
  refl_stored : ∀ j < ht.table.length, slotOcc tr ht.table j →
    tr.isEq (ht.table.getD j tr.unoccupied) (ht.table.getD j tr.unoccupied) = true
  distinct : ∀ j1 < ht.table.length, ∀ j2 < ht.table.length,
    slotOcc tr ht.table j1 → slotOcc tr ht.table j2 →
    tr.isEq (ht.table.getD j1 tr.unoccupied) (ht.table.getD j2 tr.unoccupied) = true → j1 = j2

/-- The traits contract assumed of every instantiation: keys inserted are
never unoccupied-valued, `is_equal` is reflexive on them, and equal values
hash equally. -/
structure GoodKey {α : Type} (tr : HashTraits α) (k : α) : Prop where
  not_unocc : tr.isUnoccupied k = false
  refl : tr.isEq k k = true

/-- Hash/equality congruence: the (implicit) contract that `is_equal` values
share a hash, satisfied by every traits instantiation in the repository. -/
def HashCongr {α : Type} (tr : HashTraits α) : Prop :=
  ∀ a b, tr.isEq a b = true → tr.hash a = tr.hash b

/-- Occupied values of a list are pairwise `is_equal`-distinct (in both
argument orders). -/
def PairwiseOK {α : Type} (tr : HashTraits α) (l : List α) : Prop :=
  List.Pairwise (fun a b => tr.isUnoccupied a = false → tr.isUnoccupied b = false →
    tr.isEq a b = false ∧ tr.isEq b a = false) l

/-- Folding `insertOp` over a list of keys from a default-constructed table:
the caller-side insert pattern of the spec. -/
def insertSeq {α : Type} (tr : HashTraits α) (ks : List α) : HashTable α :=
  ks.foldl (insertOp tr 64) emptyHT

/-- `node_hash_traits` (node_map.hpp): keys are node pointers (64-bit
words), unoccupied is the null pointer, removed is the all-ones word
(`memset -1`), equality is pointer equality, hash drops the three alignment
bits. -/
def nodeTraits : HashTraits Nat where
  isUnoccupied p := p == 0 || p == 2 ^ 64 - 1
  removed := 2 ^ 64 - 1
  unoccupied := 0
  isEq e k := e == k
  hash p := p / 8

/-- `symbol_hash_traits` (symbol_table.hpp) at `IndexType = std::size_t`:
entries are symbol indices, a slot counts as unoccupied when its value is at
least `IndexType(-2)`; `fill_removed` writes `-2`, `fill_unoccupied` writes
`-1` (all bits set); the hash is the index itself. -/
def symbolTraits : HashTraits Nat where
  isUnoccupied i := decide (2 ^ 64 - 2 ≤ i)
  removed := 2 ^ 64 - 2
  unoccupied := 2 ^ 64 - 1
  isEq e k := e == k
  hash i := i

/-- `node_map`: a hash table of node pointers plus the parallel value array
(`_values`, sharing the key's index). -/
structure NodeMap (δ : Type) where
  ht : HashTable Nat
  values : List δ

/-- `node_map::contains`: false on an empty map without probing, otherwise
the truthiness of the `lookup_entry` handle. -/
def nmContains {δ : Type} (nm : NodeMap δ) (k : Nat) : Bool :=
  if nm.ht.size = 0 then false
  else
    match lookupEntry nodeTraits nm.ht k with
    | some (_, b) => b
    | none => false

/-- `node_map::lookup`: null on an empty map without probing, otherwise the
value at the found entry's index or null. -/
def nmLookup {δ : Type} (nm : NodeMap δ) (k : Nat) : Option δ :=
  if nm.ht.size = 0 then none
  else
    match lookupEntry nodeTraits nm.ht k with
    | some (idx, true) => nm.values[idx]?
    | _ => none

/-- `symbol_table`: a hash table of symbol indices plus the parallel
`DeclRef` array (`_decls`, sharing the key's index). -/
structure SymbolTable (δ : Type) where
  ht : HashTable Nat
  decls : List δ

/-- `symbol_table::lookup`: a default-constructed `DeclRef` on an empty
table without probing, otherwise the declaration at the found entry's index
or the default. -/
def stLookup {δ : Type} (dflt : δ) (st : SymbolTable δ) (sym : Nat) : δ :=
  if st.ht.size = 0 then dflt
  else
    match lookupEntry symbolTraits st.ht sym with
    | some (idx, true) => st.decls.getD idx dflt
    | _ => dflt

/-- `symbol_table::remove`: on an empty table, or when the symbol is not
found, returns a default-constructed `DeclRef` and leaves the table alone;
otherwise removes the entry and returns its declaration. -/
def stRemove {δ : Type} (dflt : δ) (st : SymbolTable δ) (sym : Nat) : δ × SymbolTable δ :=
  if st.ht.size = 0 then (dflt, st)
  else
    match lookupEntry symbolTraits st.ht sym with
    | some (idx, true) =>
      (st.decls.getD idx dflt, { st with ht := removeAt symbolTraits st.ht idx })
    | _ => (dflt, st)

/-- `arena::block_size`: `16 * 1024 - sizeof(void*)` bytes of memory per
block. -/
def blockSize : Nat := 16 * 1024 - 8

/-- `_detail::align_offset`: distance from `address` up to the next
`alignment` boundary (`alignment` a power of two). Block memory starts at
a `sizeof(void*)`-aligned address and `allocate` requires
`alignment <= alignof(void*)`, so the offset of `_cur_pos` within the
block determines the misalignment. -/
def alignOffset (addr a : Nat) : Nat :=
  let misaligned := addr &&& (a - 1)
  if misaligned ≠ 0 then a - misaligned else 0

/-- Successor in the singly linked block chain: `b->next`, with `none` for
the null pointer at the end. -/
def chainNext : List Nat → Nat → Option Nat
  | [], _ => none
  | [_], _ => none
  | x :: y :: rest, b => if x = b then some y else chainNext (y :: rest) b

/-- `arena`: the chain of blocks hanging off `_first_block` (each block
named by the order the memory resource handed it out, so distinct names
are distinct addresses), the name the next fresh block will get, and the
`(_cur_block, _cur_pos)` pair — `none` models the two null pointers of a
freshly constructed arena. A position `(b, o)` stands for the address
`&b->memory[o]`. -/
structure Arena where
  chain : List Nat
  nextId : Nat
  cur : Option (Nat × Nat)

/-- `arena::allocate`: bump `_cur_pos` by the alignment offset, or move to
the next block (allocating a fresh one at the end of the chain) when the
request does not fit; with no current block the first allocation installs
a fresh `_first_block`. Returns the new state and the resulting address
(`none` only for the degenerate size-0 call on an empty arena, which
returns the null `_cur_pos`). -/
def allocate (ar : Arena) (size align : Nat) : Arena × Option (Nat × Nat) :=
  match ar.cur with
  | none =>
    if 0 + size > 0 then
      ({ chain := [ar.nextId], nextId := ar.nextId + 1, cur := some (ar.nextId, size) },
        some (ar.nextId, 0))
    else (ar, none)
  | some (b, pos) =>
    if alignOffset pos align + size > blockSize - pos then
      match chainNext ar.chain b with
      | some n => ({ ar with cur := some (n, size) }, some (n, 0))
      | none =>
        ({ chain := ar.chain ++ [ar.nextId], nextId := ar.nextId + 1,
           cur := some (ar.nextId, size) }, some (ar.nextId, 0))
    else
      ({ ar with cur := some (b, pos + alignOffset pos align + size) },
        some (b, pos + alignOffset pos align))

/-- `arena::top`: the `(_cur_block, _cur_pos)` marker. -/
def top (ar : Arena) : Option (Nat × Nat) := ar.cur

/-- `arena::unwind`: restore `(_cur_block, _cur_pos)` from the marker. -/
def unwind (ar : Arena) (m : Option (Nat × Nat)) : Arena :=
  { ar with cur := m }

/-- `arena::clear`: nothing to do without blocks, otherwise reset
`_cur_block` to `_first_block` and `_cur_pos` to its first byte, keeping
every allocated block. -/
def clear (ar : Arena) : Arena :=
  match ar.chain with
  | [] => ar
  | f :: _ => { ar with cur := some (f, 0) }

/-- A sequence of `allocate` calls (size, alignment), collecting the
returned addresses. -/
def allocSeq : Arena → List (Nat × Nat) → Arena × List (Option (Nat × Nat))
  | ar, [] => (ar, [])
  | ar, (size, align) :: ops =>
    let r := allocate ar size align
    let rest := allocSeq r.1 ops
    (rest.1, r.2 :: rest.2)

/-- FNV-1a 64-bit offset basis (`string_hash` in symbol.hpp). -/
def fnvBasis : Nat := 14695981039346656037

/-- FNV-1a 64-bit prime (`string_hash` in symbol.hpp). -/
def fnvPrime : Nat := 1099511628211

/-- The byte sequence a C-string read stops at: everything up to the first
null byte. `strcmp` and `string_hash` both iterate until `CharT(0)`. -/
def cstrOf (s : List Nat) : List Nat := s.takeWhile (fun c => c != 0)

/-- `unique_symbol_map::string_hash`: FNV-1a over the bytes up to the null
terminator, with 64-bit wraparound. -/
def stringHash (s : List Nat) : Nat :=
  (cstrOf s).foldl (fun r b => ((r ^^^ b) * fnvPrime) % 2 ^ 64) fnvBasis

/-- `symbol_buffer::insert`: append exactly `length` bytes of the string
plus a null terminator; the returned index is the old size. -/
def bufInsert (buf str : List Nat) (length : Nat) : Nat × List Nat :=
  (buf.length, buf ++ str.take length ++ [0])

/-- `symbol_buffer::c_str`: the null-terminated string stored at `idx`, as
the byte sequence a reader of the returned pointer sees. -/
def cStrAt (buf : List Nat) (idx : Nat) : List Nat := cstrOf (buf.drop idx)

/-- `unique_symbol_map::invalid_index` at `IndexType = std::size_t`. -/
def invalidIndex : Nat := 2 ^ 64 - 1

/-- `unique_symbol_map`: the open-addressing table of string indices and
its occupancy count. -/
structure SymMap where
  table : List Nat
  size : Nat

/-- `symbol_interner`: the symbol buffer plus the unique-string map. -/
structure Interner where
  buf : List Nat
  map : SymMap

/-- The probe loop of `unique_symbol_map::lookup_entry`. Returns the slot
whose address the function returns and whether it claimed an empty entry
(incrementing `_table_size`). Note the found branch returns
`&_table[table_idx]` — `start`, the initial probe position, which the loop
never advances — not the entry where the match was found. -/
def symLookupAux (buf table str : List Nat) (start : Nat) :
    Nat → Nat → Option (Nat × Bool)
  | 0, _ => none
  | fuel + 1, idx =>
    let e := table.getD idx invalidIndex
    if e = invalidIndex then some (idx, true)
    else if cstrOf str = cStrAt buf e then some (start, false)
    else
      symLookupAux buf table str start fuel
        (if idx + 1 = table.length then 0 else idx + 1)

/-- `unique_symbol_map::lookup_entry`: probe from the hash reduced by the
power-of-two capacity mask. -/
def symLookup (buf : List Nat) (m : SymMap) (str : List Nat) :
    Option (Nat × Bool) :=
  symLookupAux buf m.table str (stringHash str &&& (m.table.length - 1))
    m.table.length (stringHash str &&& (m.table.length - 1))

/-- `unique_symbol_map::should_rehash`: load factor at least one half. -/
def shouldRehashSym (m : SymMap) : Bool :=
  m.table.length / 2 ≤ m.size

/-- `unique_symbol_map::rehash`: round the capacity up (minimum 1024, else
next power of two), and when it grows, fill a fresh table with
`invalid_index` and re-insert every stored index by looking up its string. -/
def symRehash (buf : List Nat) (m : SymMap) (newCap : Nat) : SymMap :=
  let cap2 := toTableCapacity 1024 newCap
  if cap2 ≤ m.table.length then m
  else
    m.table.foldl (fun acc e =>
      if e ≠ invalidIndex then
        match symLookup buf acc (cStrAt buf e) with
        | some (slot, claimed) =>
          { table := acc.table.set slot e,
            size := acc.size + if claimed then 1 else 0 }
        | none => acc
      else acc)
      { table := List.replicate cap2 invalidIndex, size := 0 }

/-- `symbol_interner::intern`: rehash when the load calls for it, look the
string up, return the index stored at the returned entry when it is not
`invalid_index`, otherwise copy the string into the buffer and store its
index. The returned `Nat` is the `symbol`'s index (symbols compare by
index). -/
def intern (it : Interner) (str : List Nat) (length : Nat) : Interner × Nat :=
  let m1 := if shouldRehashSym it.map then
    symRehash it.buf it.map (2 * it.map.table.length) else it.map
  match symLookup it.buf m1 str with
  | none => (⟨it.buf, m1⟩, invalidIndex)
  | some (slot, _) =>
    let e := m1.table.getD slot invalidIndex
    if e ≠ invalidIndex then (⟨it.buf, m1⟩, e)
    else
      (⟨(bufInsert it.buf str length).2,
        ⟨m1.table.set slot (bufInsert it.buf str length).1, m1.size + 1⟩⟩,
       (bufInsert it.buf str length).1)

/-- A freshly constructed `symbol_interner`. -/
def emptyInterner : Interner := ⟨[], ⟨[], 0⟩⟩

mutual
/-- The content of a subtree as `is_equal_base`/`hash_base` observe it: the
node's kind, its non-tree scalar data (what the `NodeHasher`'s per-type
`is_equal`/`hash` read), and the children in order. -/
inductive BShape where
  | mk : Nat → Nat → BList → BShape
/-- A list of child subtrees. -/
inductive BList where
  | nil : BList
  | cons : BShape → BList → BList
end

mutual
/-- `node_hasher_base::is_equal_base`: kinds equal, per-node data equal
(`visit_node_all` with the `NodeHasher`'s `is_equal`), then the children
ranges compared recursively, requiring both to end together. -/
def shapeEq : BShape → BShape → Bool
  | BShape.mk k1 d1 c1, BShape.mk k2 d2 c2 =>
    k1 == k2 && d1 == d2 && shapeEqL c1 c2
/-- The child-range comparison loop of `is_equal_base`. -/
def shapeEqL : BList → BList → Bool
  | BList.nil, BList.nil => true
  | BList.cons t1 r1, BList.cons t2 r2 => shapeEq t1 t2 && shapeEqL r1 r2
  | _, _ => false
end

/-- The machine address of arena position `(block, offset)`: blocks are
disjoint `16KiB`-regions, so distinct positions have distinct addresses and
no position has address 0 or all-ones. -/
def addrOf (p : Nat × Nat) : Nat := (p.1 + 1) * 2 ^ 20 + p.2

/-- `hash_forest_traits`: entries are root-node pointers; unoccupied is the
null pointer and removed the all-ones word; equality is `is_equal_base` on
the trees rooted there; the hash is `hash_base`, a function of the tree's
content only (modelled by the parameter `hf` applied to the root's shape). -/
def forestTraits (sh : Nat → BShape) (hf : BShape → Nat) : HashTraits Nat where
  isUnoccupied p := p == 0 || p == 2 ^ 64 - 1
  removed := 2 ^ 64 - 1
  unoccupied := 0
  isEq e k := shapeEq (sh e) (sh k)
  hash p := hf (sh p)

/-- `hash_forest`: the node arena, the content of the tree rooted at each
allocated address, and the `_roots` hash table of committed root pointers. -/
structure Forest where
  arena : Arena
  shapes : Nat → BShape
  roots : HashTable Nat

/-- Assign the candidate's content to its root address. -/
def extendShapes (sh : Nat → BShape) (root : Nat) (shape : BShape) :
    Nat → BShape :=
  fun p => if p = root then shape else sh p

/-- The `should_rehash()`-gated rehash at the top of `hash_forest::build`
(`rehash(2 * _roots.capacity())`, rounded by `to_table_capacity` with
`MinTableSize = 64`). -/
def buildTable (hf : BShape → Nat) (f : Forest) : HashTable Nat :=
  if shouldRehash f.roots then
    rehashHT (forestTraits f.shapes hf) f.roots
      (toTableCapacity 64 (2 * f.roots.table.length))
  else f.roots

/-- `hash_forest::build`: rehash if due, take the arena marker, run the
builder (its allocations, the first of which constructs the root whose
self-loop sentinel `set_next_parent` establishes), then look the candidate
root up in `_roots`. If found, unwind the arena to the marker and return
the committed root; otherwise commit the candidate and return it. The
second component is the returned root pointer. -/
def build (hf : BShape → Nat) (f : Forest) (sizes : List (Nat × Nat))
    (shape : BShape) : Forest × Nat :=
  let m0 := buildTable hf f
  let marker := top f.arena
  match sizes with
  | [] => ({ arena := f.arena, shapes := f.shapes, roots := m0 }, 0)
  | (s1, a1) :: rest =>
    let r1 := allocate f.arena s1 a1
    match r1.2 with
    | none => ({ arena := r1.1, shapes := f.shapes, roots := m0 }, 0)
    | some ra =>
      let arena2 := (allocSeq r1.1 rest).1
      let root := addrOf ra
      let sh2 := extendShapes f.shapes root shape
      match lookupEntry (forestTraits sh2 hf) m0 root with
      | some (idx, true) =>
        ({ arena := unwind arena2 marker, shapes := f.shapes, roots := m0 },
          m0.table.getD idx 0)
      | some (idx, false) =>
        ({ arena := arena2, shapes := sh2, roots := create m0 idx root }, root)
      | none => ({ arena := arena2, shapes := sh2, roots := m0 }, root)

/-!
## Theorems
-/

theorem Store.set_same (s : Store) (i : Nat) (n : Node) : (s.set i n) i = n := by
  simp [Store.set]

theorem Store.set_other (s : Store) (i j : Nat) (n : Node) (h : j ≠ i) :
    (s.set i n) j = s j := by
  simp [Store.set, h]

theorem links_congr {s s' : Store} {c : Nat} :
    ∀ {l : List Nat}, (∀ k ∈ l, s' k = s k) → links s c l → links s' c l
  | [], _, _ => trivial
  | [k], h, hl => by
    simp only [links] at hl ⊢
    rw [h k (by simp)]; exact hl
  | k :: k' :: rest, h, hl => by
    simp only [links] at hl ⊢
    refine ⟨by rw [h k (by simp)]; exact hl.1, ?_⟩
    exact links_congr (fun x hx => h x (List.mem_cons_of_mem _ hx)) hl.2

/-- Every node on the chain is linked. -/
theorem links_next_isSome {s : Store} {c : Nat} :
    ∀ {l : List Nat}, links s c l → ∀ k ∈ l, (s k).next.isSome
  | [], _, k, hk => by simp at hk
  | [k'], hl, k, hk => by
    simp only [List.mem_singleton] at hk
    subst hk
    simp only [links] at hl
    simp [hl]
  | a :: b :: rest, hl, k, hk => by
    simp only [links] at hl
    rcases List.mem_cons.mp hk with h | h
    · subst h; simp [hl.1]
    · exact links_next_isSome hl.2 k h

theorem mem_insertAfterL {p child x : Nat} :
    ∀ {l : List Nat}, x ∈ insertAfterL p child l → x ∈ l ∨ x = child
  | [], h => by simp [insertAfterL] at h
  | k :: rest, h => by
    simp only [insertAfterL] at h
    by_cases hk : k = p
    · simp only [if_pos hk] at h
      rcases List.mem_cons.mp h with h | h
      · exact Or.inl (by simp [h])
      rcases List.mem_cons.mp h with h | h
      · exact Or.inr h
      · exact Or.inl (List.mem_cons_of_mem _ h)
    · simp only [if_neg hk] at h
      rcases List.mem_cons.mp h with h | h
      · exact Or.inl (by simp [h])
      · rcases mem_insertAfterL h with h | h
        · exact Or.inl (List.mem_cons_of_mem _ h)
        · exact Or.inr h

theorem mem_of_mem_insertAfterL {p child x : Nat} {l : List Nat}
    (h : x ∈ l) : x ∈ insertAfterL p child l := by
  induction l with
  | nil => simp at h
  | cons k rest ih =>
    simp only [insertAfterL]
    by_cases hk : k = p
    · simp only [if_pos hk]
      rcases List.mem_cons.mp h with h | h
      · simp [h]
      · exact List.mem_cons_of_mem _ (List.mem_cons_of_mem _ h)
    · simp only [if_neg hk]
      rcases List.mem_cons.mp h with h | h
      · simp [h]
      · exact List.mem_cons_of_mem _ (ih h)

theorem nodup_insertAfterL {p child : Nat} :
    ∀ {l : List Nat}, l.Nodup → child ∉ l → (insertAfterL p child l).Nodup
  | [], _, _ => by simp [insertAfterL]
  | k :: rest, hd, hc => by
    have hkr : k ∉ rest := (List.nodup_cons.mp hd).1
    have hdr : rest.Nodup := (List.nodup_cons.mp hd).2
    have hck : child ≠ k := fun h => hc (by simp [h])
    have hcr : child ∉ rest := fun h => hc (List.mem_cons_of_mem _ h)
    simp only [insertAfterL]
    by_cases hk : k = p
    · simp only [if_pos hk]
      exact List.nodup_cons.mpr ⟨by
        intro h
        rcases List.mem_cons.mp h with h | h
        · exact hck h.symm
        · exact hkr h,
        List.nodup_cons.mpr ⟨hcr, hdr⟩⟩
    · simp only [if_neg hk]
      refine List.nodup_cons.mpr ⟨fun h => ?_, nodup_insertAfterL hdr hcr⟩
      rcases mem_insertAfterL h with h | h
      · exact hkr h
      · exact hck h.symm

theorem head_insertAfterL {p child k : Nat} {rest : List Nat} :
    (insertAfterL p child (k :: rest)).head? = some k := by
  simp only [insertAfterL]
  by_cases hk : k = p <;> simp [hk]

theorem insertAfterL_cons (p child k : Nat) (rest : List Nat) :
    ∃ t, insertAfterL p child (k :: rest) = k :: t := by
  simp only [insertAfterL]
  by_cases hk : k = p <;> simp [hk]

/-- Splicing after `p` rewires exactly the links of `p` and the new child. -/
theorem links_insertAfter {s : Store} {c p child : Nat} :
    ∀ {l : List Nat}, links s c l → l.Nodup → p ∈ l → child ∉ l →
      links (setNext (setNext s child ((s p).next)) p (some (false, child))) c
        (insertAfterL p child l)
  | [], _, _, hp, _ => by simp at hp
  | [k], hl, _, hp, hch => by
    have hpk : p = k := by simpa using hp
    subst hpk
    have hchp : child ≠ p := by simp at hch; exact hch
    simp only [links] at hl
    simp only [insertAfterL, if_pos rfl, links]
    constructor
    · rw [setNext, Store.set_same]
    · rw [setNext, Store.set, if_neg hchp, setNext, Store.set_same, hl]
  | k :: k' :: rest, hl, hnd, hp, hch => by
    simp only [links] at hl
    have hchk : child ≠ k := fun h => hch (by simp [h])
    by_cases hkp : k = p
    · subst hkp
      have hknr : k ∉ k' :: rest := (List.nodup_cons.mp hnd).1
      simp only [insertAfterL, if_pos rfl, links]
      refine ⟨by rw [setNext, Store.set_same], ?_, ?_⟩
      · rw [setNext, Store.set, if_neg hchk, setNext, Store.set_same, hl.1]
      · refine links_congr (fun x hx => ?_) hl.2
        have hxch : x ≠ child := fun h =>
          hch (by rw [← h]; exact List.mem_cons_of_mem _ hx)
        have hxk : x ≠ k := fun h => hknr (h ▸ hx)
        rw [setNext, Store.set, if_neg hxk, setNext, Store.set, if_neg hxch]
    · have hp' : p ∈ k' :: rest := by
        rcases List.mem_cons.mp hp with h | h
        · exact absurd h.symm hkp
        · exact h
      have hch' : child ∉ k' :: rest := fun h => hch (List.mem_cons_of_mem _ h)
      obtain ⟨t, ht⟩ := insertAfterL_cons p child k' rest
      have ih := links_insertAfter hl.2 (List.nodup_cons.mp hnd).2 hp' hch'
      rw [ht] at ih
      have hrw : insertAfterL p child (k :: k' :: rest) = k :: k' :: t := by
        rw [insertAfterL, if_neg hkp, ht]
      rw [hrw]
      simp only [links]
      refine ⟨?_, ih⟩
      have hkp' : k ≠ p := hkp
      have hkch : k ≠ child := fun hh => hchk hh.symm
      simp only [setNext, Store.set, hkp', hkch, if_false, ite_false]
      exact hl.1

/-- Preservation: one `insert_child_after` call with an unlinked child keeps
the chain invariant, updating the abstract list accordingly. -/
theorem chain_insert {s : Store} {c : Nat} {l : List Nat} {pos : Option Nat} {child : Nat}
    (h : ChildChain s c l) (hunlinked : (s child).next = none) (hcc : child ≠ c)
    (hpos : ∀ p, pos = some p → p ∈ l) :
    ChildChain (insertChildAfter s c pos child) c (absInsert l pos child) := by
  have hmem : child ∉ l := fun hm => by
    have := links_next_isSome h.chain child hm
    rw [hunlinked] at this
    simp at this
  have hcc' : c ≠ child := fun hh => hcc hh.symm
  cases pos with
  | none =>
    cases l with
    | nil =>
      have hfc : (s c).firstChild = none := by simpa using h.first
      refine ⟨?_, ?_, ?_, ?_, ?_⟩
      · rw [insertChildAfter, hfc]
        simp only [setFirstChild, setNext]
        rw [Store.set_same]
        simp only [Store.set, if_neg hcc']
        exact h.container
      · rw [insertChildAfter, hfc]
        simp [setFirstChild, Store.set_same, absInsert]
      · rw [insertChildAfter, hfc]
        simp only [absInsert, links, setFirstChild, setNext]
        rw [Store.set, if_neg hcc, Store.set_same]
      · simp [absInsert]
      · simp only [absInsert]
        intro hmm
        rcases List.mem_cons.mp hmm with hc2 | hc2
        · exact hcc hc2.symm
        · simp at hc2
    | cons k0 rest =>
      have hfc : (s c).firstChild = some k0 := by simpa using h.first
      have hcl : ∀ x ∈ k0 :: rest, insertChildAfter s c none child x = s x := by
        intro x hx
        have hxch : x ≠ child := fun hh => hmem (hh ▸ hx)
        have hxc : x ≠ c := fun hh => h.notSelf (hh ▸ hx)
        rw [insertChildAfter, hfc]
        simp only [setFirstChild, setNext]
        rw [Store.set, if_neg hxc, Store.set, if_neg hxch]
      refine ⟨?_, ?_, ?_, ?_, ?_⟩
      · rw [insertChildAfter, hfc]
        simp only [setFirstChild, setNext]
        rw [Store.set_same]
        simp only [Store.set, if_neg hcc']
        exact h.container
      · rw [insertChildAfter, hfc]
        simp [setFirstChild, Store.set_same, absInsert]
      · have hchild : insertChildAfter s c none child child
            = { s child with next := some (false, k0) } := by
          rw [insertChildAfter, hfc]
          simp only [setFirstChild, setNext]
          rw [Store.set, if_neg hcc, Store.set_same]
        simp only [absInsert, links]
        exact ⟨by rw [hchild], links_congr hcl h.chain⟩
      · simp only [absInsert]
        exact List.nodup_cons.mpr ⟨hmem, h.nodup⟩
      · simp only [absInsert]
        intro hc
        rcases List.mem_cons.mp hc with hc | hc
        · exact hcc hc.symm
        · exact h.notSelf hc
  | some p =>
    have hp : p ∈ l := hpos p rfl
    have hpc : p ≠ c := fun hh => h.notSelf (hh ▸ hp)
    have hcback : insertChildAfter s c (some p) child c = s c := by
      rw [insertChildAfter]
      simp only [setNext]
      rw [Store.set, if_neg (fun hh => hpc hh.symm), Store.set,
        if_neg (fun hh => hcc hh.symm)]
    refine ⟨?_, ?_, ?_, ?_, ?_⟩
    · rw [hcback]; exact h.container
    · rw [hcback, h.first]
      cases l with
      | nil => simp at hp
      | cons k rest => simp [absInsert, head_insertAfterL]
    · simpa [absInsert, insertChildAfter, setNext] using
        links_insertAfter h.chain h.nodup hp hmem
    · exact nodup_insertAfterL h.nodup hmem
    · simp only [absInsert]
      intro hc
      rcases mem_insertAfterL hc with hc | hc
      · exact h.notSelf hc
      · exact hcc hc.symm

/-- The `_children_range` walk recovers exactly the chain list. -/
theorem childrenAux_of_links {s : Store} {c : Nat} :
    ∀ {rest : List Nat} {k fuel : Nat}, links s c (k :: rest) → c ∉ (k :: rest) →
      (k :: rest).length < fuel → childrenAux s c fuel k = k :: rest
  | [], k, fuel, hl, hc, hfuel => by
    simp only [links] at hl
    have hkc : k ≠ c := fun h => hc (by simp [h])
    obtain ⟨g, rfl⟩ : ∃ g, fuel = g + 2 := ⟨fuel - 2, by simp at hfuel; omega⟩
    simp [childrenAux, hkc, nextNode, hl]
  | k' :: rest, k, fuel, hl, hc, hfuel => by
    simp only [links] at hl
    have hkc : k ≠ c := fun h => hc (by simp [h])
    obtain ⟨g, rfl⟩ : ∃ g, fuel = g + 1 := ⟨fuel - 1, by simp at hfuel; omega⟩
    have hlen : (k' :: rest).length < g := by simp at hfuel ⊢; omega
    have ih := childrenAux_of_links (s := s) (c := c) hl.2
      (fun h => hc (List.mem_cons_of_mem _ h)) hlen
    simp [childrenAux, hkc, nextNode, hl.1, ih]

/-- `node::children` enumerates exactly the chain. -/
theorem childrenList_of_chain {s : Store} {c : Nat} {l : List Nat} {fuel : Nat}
    (h : ChildChain s c l) (hfuel : l.length < fuel) : childrenList s c fuel = l := by
  cases l with
  | nil =>
    have hfc : (s c).firstChild = none := by simpa using h.first
    simp [childrenList, childrenEmpty, h.container, hfc]
  | cons k rest =>
    have hfc : (s c).firstChild = some k := by simpa using h.first
    simp only [childrenList, childrenEmpty, h.container, hfc]
    simp only [Option.isNone_some, if_true, if_false, Bool.false_eq_true]
    exact childrenAux_of_links h.chain h.notSelf hfuel

/-- The parent chase from any chain member reaches the container. -/
theorem parentAux_of_links {s : Store} {c : Nat} :
    ∀ {l : List Nat} {k fuel : Nat}, links s c l → k ∈ l → l.length ≤ fuel →
      parentAux s fuel k = some c
  | [], k, fuel, _, hk, _ => by simp at hk
  | k0 :: rest, k, fuel, hl, hk, hfuel => by
    rcases List.mem_cons.mp hk with hkk | hkk
    · subst hkk
      obtain ⟨f, rfl⟩ : ∃ f, fuel = f + 1 := ⟨fuel - 1, by simp at hfuel; omega⟩
      cases rest with
      | nil =>
        simp only [links] at hl
        simp [parentAux, hl]
      | cons k1 r =>
        simp only [links] at hl
        have hlen : (k1 :: r).length ≤ f := by simp at hfuel ⊢; omega
        have ih := parentAux_of_links (s := s) (c := c) hl.2 (List.mem_cons_self k1 r) hlen
        simp [parentAux, hl.1, ih]
    · cases rest with
      | nil => simp at hkk
      | cons k1 r =>
        have hl2 : links s c (k1 :: r) := by
          simp only [links] at hl
          exact hl.2
        have hlen : (k1 :: r).length ≤ fuel := by simp at hfuel ⊢; omega
        exact parentAux_of_links hl2 hkk hlen

/-- `node::parent` from any child returns the container. -/
theorem parent_of_chain {s : Store} {c : Nat} {l : List Nat} {k fuel : Nat}
    (h : ChildChain s c l) (hk : k ∈ l) (hfuel : l.length ≤ fuel) :
    parent s k fuel = some c := by
  have hlinked : isLinked s k := links_next_isSome h.chain k hk
  rw [parent, if_pos hlinked]
  exact parentAux_of_links h.chain hk hfuel

theorem chain_applyInserts {c : Nat} :
    ∀ (ops : List (Option Nat × Nat)) {s : Store} {l : List Nat},
      ChildChain s c l → ValidInserts c s l ops →
      ChildChain (applyInserts c s ops) c (absApply l ops)
  | [], s, l, h, _ => h
  | (pos, ch) :: ops, s, l, h, hv => by
    simp only [ValidInserts] at hv
    obtain ⟨h1, h2, h3, h4⟩ := hv
    exact chain_applyInserts ops (s := insertChildAfter s c pos ch)
      (l := absInsert l pos ch) (chain_insert h h1 h2 h3) h4

/-- C2: starting from a container `c` with no children, any valid sequence of
`insert_child_after` calls (front insertion for `pos = none`, or after an
existing child) attaching previously unlinked nodes yields a store in which
`c.children()` enumerates exactly the attached children in their
insertion-relative order (the abstract list computed by `absApply`), and
`parent()` on each attached child returns `c`. -/
theorem insert_children_enumerate {s : Store} {c : Nat} {ops : List (Option Nat × Nat)}
    (hc : ChildChain s c []) (hv : ValidInserts c s [] ops) :
    (∀ fuel, (absApply [] ops).length < fuel →
        childrenList (applyInserts c s ops) c fuel = absApply [] ops)
      ∧ (∀ k ∈ absApply [] ops, ∀ fuel, (absApply [] ops).length ≤ fuel →
          parent (applyInserts c s ops) k fuel = some c) := by
  have h := chain_applyInserts ops hc hv
  exact ⟨fun fuel hfuel => childrenList_of_chain h hfuel,
    fun k hk fuel hfuel => parent_of_chain h hk hfuel⟩

/-- Witness for C2: container 0; insert 1 at the front, then 2 at the front,
then 3 after 1.  The children are `[2, 1, 3]` and each has parent 0. -/
theorem insert_children_enumerate_witness :
    childrenList (applyInserts 0 (mkContainer emptyStore 0 7) [(none, 1), (none, 2), (some 1, 3)])
        0 4 = [2, 1, 3]
      ∧ parent (applyInserts 0 (mkContainer emptyStore 0 7) [(none, 1), (none, 2), (some 1, 3)])
          1 3 = some 0
      ∧ parent (applyInserts 0 (mkContainer emptyStore 0 7) [(none, 1), (none, 2), (some 1, 3)])
          2 3 = some 0
      ∧ parent (applyInserts 0 (mkContainer emptyStore 0 7) [(none, 1), (none, 2), (some 1, 3)])
          3 3 = some 0 := by
  have hc : ChildChain (mkContainer emptyStore 0 7) 0 [] :=
    ⟨by decide, by decide, trivial, List.nodup_nil, List.not_mem_nil 0⟩
  have hv : ValidInserts 0 (mkContainer emptyStore 0 7) [] [(none, 1), (none, 2), (some 1, 3)] :=
    ⟨by decide, by decide, nofun,
      by decide, by decide, nofun,
      by decide, by decide, (by intro p hp; cases hp; decide),
      trivial⟩
  have h := insert_children_enumerate hc hv
  exact ⟨h.1 4 (by decide), h.2 1 (by decide) 3 (by decide),
    h.2 2 (by decide) 3 (by decide), h.2 3 (by decide) 3 (by decide)⟩

/-- C3: `tree::set_root` on an unlinked node `r` (the function's two
preconditions are `root != nullptr` and `!root->is_linked_in_tree()`, matching
the claim) establishes the self-loop sentinel `some (true, r)`, after which
`r.parent()` returns `r` itself (the chase terminates immediately at the
parent-tagged self pointer) and `r.siblings()` is an empty range (both
`begin()` and `end()` are the null iterator because the link points at the
node itself). -/
theorem setRoot_establishes_sentinel (s : Store) (r : Nat) (_h : (s r).next = none) :
    ((setRoot s r) r).next = some (true, r)
      ∧ (∀ fuel : Nat, parent (setRoot s r) r (fuel + 1) = some r)
      ∧ siblingsEmpty (setRoot s r) r = true := by
  have hr : (setRoot s r) r = { s r with next := some (true, r) } := by
    simp [setRoot, setNext, Store.set_same]
  refine ⟨by rw [hr], fun fuel => ?_, ?_⟩
  · simp [parent, isLinked, hr, parentAux]
  · simp [siblingsEmpty, hr]

/-- Witness for C3 at a concrete input: node 5 in the empty store is
unlinked, and `set_root` gives it the self-loop sentinel with self-parent and
no siblings. -/
theorem setRoot_establishes_sentinel_witness :
    (emptyStore 5).next = none
      ∧ (((setRoot emptyStore 5) 5).next = some (true, 5)
          ∧ (∀ fuel : Nat, parent (setRoot emptyStore 5) 5 (fuel + 1) = some 5)
          ∧ siblingsEmpty (setRoot emptyStore 5) 5 = true) :=
  ⟨rfl, setRoot_establishes_sentinel emptyStore 5 rfl⟩

theorem traverseFrom_step (s : Store) (fuel : Nat) (ev : TEvent) (n : Nat) :
    traverseFrom s ⟨TEvent.leaf, none⟩ (fuel + 1) ⟨ev, some n⟩
      = (ev, n) :: traverseFrom s ⟨TEvent.leaf, none⟩ fuel (tinc s ⟨ev, some n⟩) := by
  rw [traverseFrom]
  simp

theorem realized_isContainer {s : Store} {t : TreeShape} {nx : Bool × Nat}
    (h : Realized s t nx) : (s (rootId t)).isContainer = isNodeShape t := by
  cases t with
  | leaf i => simpa [rootId, isNodeShape] using h.1
  | node i cs => simpa [rootId, isNodeShape] using h.1

theorem realized_next {s : Store} {t : TreeShape} {nx : Bool × Nat}
    (h : Realized s t nx) : (s (rootId t)).next = some nx := by
  cases t with
  | leaf i => exact h.2
  | node i cs => exact h.2.1

theorem rootId_mem_ids (t : TreeShape) : rootId t ∈ ids t := by
  cases t <;> simp [rootId, ids]

/-- One increment from a subtree's last event follows the root's link. -/
theorem tinc_endIter {s : Store} {t : TreeShape} {nx : Bool × Nat}
    (h : Realized s t nx) : tinc s (endIter t) = contIter s nx (rootId t) := by
  obtain ⟨b, tgt⟩ := nx
  cases t with
  | leaf i =>
    have hn := realized_next h
    simp only [rootId] at hn
    simp [endIter, tinc, hn, contIter, rootId]
  | node i cs =>
    have hn := realized_next h
    simp only [rootId] at hn
    simp [endIter, tinc, hn, contIter, rootId]

/-- Following a sibling link into the next subtree starts its traversal. -/
theorem contIter_startIter {s : Store} {t' : TreeShape} {nx' : Bool × Nat} {cur : Nat}
    (h : Realized s t' nx') (hne : rootId t' ≠ cur) :
    contIter s (false, rootId t') cur = startIter t' := by
  have hc := realized_isContainer h
  cases t' with
  | leaf i =>
    simp only [rootId, isNodeShape] at hc hne
    simp [contIter, rootId, hne, hc, startIter]
  | node i cs =>
    simp only [rootId, isNodeShape] at hc hne
    simp [contIter, rootId, hne, hc, startIter]

mutual
/-- The iterator chase of `traverse` emits exactly the specified depth-first
events of a realized subtree, then continues past it. -/
theorem traverseFrom_flat (s : Store) :
    ∀ (t : TreeShape) (nx : Bool × Nat) (k : Nat), Realized s t nx → (ids t).Nodup →
      traverseFrom s ⟨TEvent.leaf, none⟩ ((flat t).length + k) (startIter t)
        = flat t ++ traverseFrom s ⟨TEvent.leaf, none⟩ k (contIter s nx (rootId t))
  | TreeShape.leaf i, nx, k, h, _ => by
    have hstep := tinc_endIter h
    simp only [endIter, rootId] at hstep
    have hlen : (flat (TreeShape.leaf i)).length + k = k + 1 := by
      simp [flat]
      omega
    rw [hlen]
    simp only [startIter]
    rw [traverseFrom_step, hstep]
    simp [flat, rootId]
  | TreeShape.node i cs, nx, k, h, hnd => by
    obtain ⟨hcont, hnext, hfirst, hL⟩ := h
    have hni : i ∉ idsL cs := by
      simp only [ids] at hnd
      exact (List.nodup_cons.mp hnd).1
    have hndL : (idsL cs).Nodup := by
      simp only [ids] at hnd
      exact (List.nodup_cons.mp hnd).2
    have hstep : tinc s ⟨TEvent.exit, some i⟩ = contIter s nx i := by
      have := tinc_endIter (t := TreeShape.node i cs) ⟨hcont, hnext, hfirst, hL⟩
      simpa [endIter, rootId] using this
    cases cs with
    | nil =>
      have hempty : childrenEmpty s i = true := by
        simp [childrenEmpty, hcont, hfirst, headIdL]
      have hlen : (flat (TreeShape.node i TreeList.nil)).length + k = (k + 1) + 1 := by
        simp [flat, flatL]
        omega
      rw [hlen]
      simp only [startIter]
      rw [traverseFrom_step]
      have htinc : tinc s ⟨TEvent.enter, some i⟩ = ⟨TEvent.exit, some i⟩ := by
        simp [tinc, hempty]
      rw [htinc, traverseFrom_step, hstep]
      simp [flat, flatL, rootId]
    | cons t0 ts =>
      have hempty : childrenEmpty s i = false := by
        simp [childrenEmpty, hcont, hfirst, headIdL]
      have hc0 := realized_isContainer hL.1
      have htinc : tinc s ⟨TEvent.enter, some i⟩ = startIter t0 := by
        cases t0 with
        | leaf j =>
          simp only [rootId, isNodeShape] at hc0
          simp [tinc, hempty, hfirst, headIdL, rootId, hc0, startIter]
        | node j ds =>
          simp only [rootId, isNodeShape] at hc0
          simp [tinc, hempty, hfirst, headIdL, rootId, hc0, startIter]
      have hlen : (flat (TreeShape.node i (TreeList.cons t0 ts))).length + k
          = ((flatL (TreeList.cons t0 ts)).length + (k + 1)) + 1 := by
        simp [flat]
        omega
      rw [hlen]
      simp only [startIter]
      rw [traverseFrom_step, htinc]
      have hlist := traverseFromL_flat s (TreeList.cons t0 ts) i (k + 1) hL hndL hni
      simp only [startIterL] at hlist
      rw [hlist, traverseFrom_step, hstep]
      simp [flat, rootId]
theorem traverseFromL_flat (s : Store) :
    ∀ (cs : TreeList) (par : Nat) (k : Nat), RealizedL s cs par → (idsL cs).Nodup →
      par ∉ idsL cs →
      traverseFrom s ⟨TEvent.leaf, none⟩ ((flatL cs).length + k) (startIterL cs par)
        = flatL cs ++ traverseFrom s ⟨TEvent.leaf, none⟩ k ⟨TEvent.exit, some par⟩
  | TreeList.nil, par, k, _, _, _ => by simp [flatL, startIterL]
  | TreeList.cons t ts, par, k, h, hnd, hpar => by
    obtain ⟨ht, hts⟩ := h
    have hnd' : (ids t).Nodup ∧ (idsL ts).Nodup ∧ (ids t).Disjoint (idsL ts) := by
      simpa only [idsL, List.nodup_append] using hnd
    have hpart : par ∉ ids t := fun hh => hpar (by simp only [idsL]; exact List.mem_append_left _ hh)
    have hparts : par ∉ idsL ts := fun hh =>
      hpar (by simp only [idsL]; exact List.mem_append_right _ hh)
    have hcont : contIter s (linkOf ts par) (rootId t) = startIterL ts par := by
      cases ts with
      | nil =>
        have hne : par ≠ rootId t := fun hh => hpart (hh ▸ rootId_mem_ids t)
        simp [linkOf, contIter, hne, startIterL]
      | cons t' ts' =>
        have hne : rootId t' ≠ rootId t := by
          intro hh
          exact (hnd'.2.2 (hh.symm ▸ rootId_mem_ids t)
            (by simp only [idsL]; exact List.mem_append_left _ (rootId_mem_ids t'))).elim
        simp only [linkOf]
        rw [contIter_startIter hts.1 hne]
        simp [startIterL]
    have hlen : (flatL (TreeList.cons t ts)).length + k
        = (flat t).length + ((flatL ts).length + k) := by
      simp [flatL]
      omega
    rw [hlen]
    simp only [startIterL]
    rw [traverseFrom_flat s t (linkOf ts par) ((flatL ts).length + k) ht hnd'.1, hcont,
      traverseFromL_flat s ts par k hts hnd'.2.1 hparts]
    simp [flatL]
end

theorem traverseFrom_endIt (s : Store) (endIt : TIter) (k : Nat) :
    traverseFrom s endIt k endIt = [] := by
  cases k <;> simp [traverseFrom]

mutual
theorem countP_enter_flat :
    ∀ t : TreeShape, (flat t).countP (fun e => decide (e.1 = TEvent.enter))
      = (containerIds t).length
  | TreeShape.leaf i => by simp [flat, containerIds]
  | TreeShape.node i cs => by
    simp [flat, containerIds, List.countP_cons, List.countP_append, countP_enter_flatL cs]
theorem countP_enter_flatL :
    ∀ cs : TreeList, (flatL cs).countP (fun e => decide (e.1 = TEvent.enter))
      = (containerIdsL cs).length
  | TreeList.nil => by simp [flatL, containerIdsL]
  | TreeList.cons t ts => by
    simp [flatL, containerIdsL, List.countP_append, countP_enter_flat t, countP_enter_flatL ts]
end

mutual
theorem countP_exit_flat :
    ∀ t : TreeShape, (flat t).countP (fun e => decide (e.1 = TEvent.exit))
      = (containerIds t).length
  | TreeShape.leaf i => by simp [flat, containerIds]
  | TreeShape.node i cs => by
    simp [flat, containerIds, List.countP_cons, List.countP_append, countP_exit_flatL cs]
theorem countP_exit_flatL :
    ∀ cs : TreeList, (flatL cs).countP (fun e => decide (e.1 = TEvent.exit))
      = (containerIdsL cs).length
  | TreeList.nil => by simp [flatL, containerIdsL]
  | TreeList.cons t ts => by
    simp [flatL, containerIdsL, List.countP_append, countP_exit_flat t, countP_exit_flatL ts]
end

mutual
theorem countP_leaf_flat :
    ∀ t : TreeShape, (flat t).countP (fun e => decide (e.1 = TEvent.leaf))
      = (leafIds t).length
  | TreeShape.leaf i => by simp [flat, leafIds]
  | TreeShape.node i cs => by
    simp [flat, leafIds, List.countP_cons, List.countP_append, countP_leaf_flatL cs]
theorem countP_leaf_flatL :
    ∀ cs : TreeList, (flatL cs).countP (fun e => decide (e.1 = TEvent.leaf))
      = (leafIdsL cs).length
  | TreeList.nil => by simp [flatL, leafIdsL]
  | TreeList.cons t ts => by
    simp [flatL, leafIdsL, List.countP_append, countP_leaf_flat t, countP_leaf_flatL ts]
end

mutual
theorem count_enter_flat :
    ∀ (t : TreeShape) (j : Nat), (flat t).count (TEvent.enter, j) = (containerIds t).count j
  | TreeShape.leaf i, j => by simp [flat, containerIds]
  | TreeShape.node i cs, j => by
    simp [flat, containerIds, List.count_cons, List.count_append, count_enter_flatL cs j]
theorem count_enter_flatL :
    ∀ (cs : TreeList) (j : Nat),
      (flatL cs).count (TEvent.enter, j) = (containerIdsL cs).count j
  | TreeList.nil, j => by simp [flatL, containerIdsL]
  | TreeList.cons t ts, j => by
    simp [flatL, containerIdsL, List.count_append, count_enter_flat t j, count_enter_flatL ts j]
end

mutual
theorem count_exit_flat :
    ∀ (t : TreeShape) (j : Nat), (flat t).count (TEvent.exit, j) = (containerIds t).count j
  | TreeShape.leaf i, j => by simp [flat, containerIds]
  | TreeShape.node i cs, j => by
    simp [flat, containerIds, List.count_cons, List.count_append, count_exit_flatL cs j]
theorem count_exit_flatL :
    ∀ (cs : TreeList) (j : Nat),
      (flatL cs).count (TEvent.exit, j) = (containerIdsL cs).count j
  | TreeList.nil, j => by simp [flatL, containerIdsL]
  | TreeList.cons t ts, j => by
    simp [flatL, containerIdsL, List.count_append, count_exit_flat t j, count_exit_flatL ts j]
end

mutual
theorem count_leaf_flat :
    ∀ (t : TreeShape) (j : Nat), (flat t).count (TEvent.leaf, j) = (leafIds t).count j
  | TreeShape.leaf i, j => by simp [flat, leafIds, List.count_cons, List.count_singleton]
  | TreeShape.node i cs, j => by
    simp [flat, leafIds, List.count_cons, List.count_append, count_leaf_flatL cs j]
theorem count_leaf_flatL :
    ∀ (cs : TreeList) (j : Nat), (flatL cs).count (TEvent.leaf, j) = (leafIdsL cs).count j
  | TreeList.nil, j => by simp [flatL, leafIdsL]
  | TreeList.cons t ts, j => by
    simp [flatL, leafIdsL, List.count_append, count_leaf_flat t j, count_leaf_flatL ts j]
end

mutual
theorem containerIds_sublist : ∀ t : TreeShape, (containerIds t).Sublist (ids t)
  | TreeShape.leaf i => by simp [containerIds, ids]
  | TreeShape.node i cs => by
    simp only [containerIds, ids]
    exact List.Sublist.cons₂ i (containerIdsL_sublist cs)
theorem containerIdsL_sublist : ∀ cs : TreeList, (containerIdsL cs).Sublist (idsL cs)
  | TreeList.nil => by simp [containerIdsL, idsL]
  | TreeList.cons t ts => by
    simp only [containerIdsL, idsL]
    exact List.Sublist.append (containerIds_sublist t) (containerIdsL_sublist ts)
end

mutual
theorem leafIds_sublist : ∀ t : TreeShape, (leafIds t).Sublist (ids t)
  | TreeShape.leaf i => by simp [leafIds, ids]
  | TreeShape.node i cs => by
    simp only [leafIds, ids]
    exact (leafIdsL_sublist cs).trans (List.sublist_cons_self i (idsL cs))
theorem leafIdsL_sublist : ∀ cs : TreeList, (leafIdsL cs).Sublist (idsL cs)
  | TreeList.nil => by simp [leafIdsL, idsL]
  | TreeList.cons t ts => by
    simp only [leafIdsL, idsL]
    exact List.Sublist.append (leafIds_sublist t) (leafIdsL_sublist ts)
end

/-- C1: for a tree whose attached root `r` is a container (its link is the
self-loop sentinel written by `set_root`, and the subtree is laid out per
`Realized`), `traverse(r)` yields exactly the depth-first sequence `flat`:
one `enter` and one `exit` per container (the `enter` before all events of
that container's children and the `exit` after all of them, at matching
nesting depth — this is `flat`'s recursive bracketing), and one `leaf` per
non-container.  The event totals equal the number of containers
(resp. non-containers), and per node each container id is entered and exited
exactly once and each leaf id visited exactly once. -/
theorem traverse_depth_first_events {s : Store} {r : Nat} {cs : TreeList} {k : Nat}
    (h : Realized s (TreeShape.node r cs) (true, r))
    (hnd : (ids (TreeShape.node r cs)).Nodup) :
    traverseList s r ((flat (TreeShape.node r cs)).length + k) = flat (TreeShape.node r cs)
      ∧ (flat (TreeShape.node r cs)).countP (fun e => decide (e.1 = TEvent.enter))
          = (containerIds (TreeShape.node r cs)).length
      ∧ (flat (TreeShape.node r cs)).countP (fun e => decide (e.1 = TEvent.exit))
          = (containerIds (TreeShape.node r cs)).length
      ∧ (flat (TreeShape.node r cs)).countP (fun e => decide (e.1 = TEvent.leaf))
          = (leafIds (TreeShape.node r cs)).length
      ∧ (∀ j ∈ containerIds (TreeShape.node r cs),
          (flat (TreeShape.node r cs)).count (TEvent.enter, j) = 1
            ∧ (flat (TreeShape.node r cs)).count (TEvent.exit, j) = 1)
      ∧ (∀ j ∈ leafIds (TreeShape.node r cs),
          (flat (TreeShape.node r cs)).count (TEvent.leaf, j) = 1) := by
  have hcontainer : (s r).isContainer = true := h.1
  have hend : tinc s ⟨TEvent.exit, some r⟩ = ⟨TEvent.leaf, none⟩ := by
    have := tinc_endIter h
    simp only [endIter, rootId] at this
    rw [this]
    simp [contIter]
  have hmain := traverseFrom_flat s (TreeShape.node r cs) (true, r) k h hnd
  have hndc : (containerIds (TreeShape.node r cs)).Nodup :=
    hnd.sublist (containerIds_sublist _)
  have hndl : (leafIds (TreeShape.node r cs)).Nodup :=
    hnd.sublist (leafIds_sublist _)
  refine ⟨?_, countP_enter_flat _, countP_exit_flat _, countP_leaf_flat _, ?_, ?_⟩
  · rw [traverseList, if_pos hcontainer, hend]
    simp only [startIter] at hmain
    rw [hmain]
    have : contIter s (true, r) (rootId (TreeShape.node r cs)) = ⟨TEvent.leaf, none⟩ := by
      simp [contIter, rootId]
    rw [this, traverseFrom_endIt]
    simp
  · intro j hj
    constructor
    · rw [count_enter_flat]
      exact List.count_eq_one_of_mem hndc hj
    · rw [count_exit_flat]
      exact List.count_eq_one_of_mem hndc hj
  · intro j hj
    rw [count_leaf_flat]
    exact List.count_eq_one_of_mem hndl hj

/-- Witness for C1, the claim's concrete scenario: root container 0 with
three non-container children 1 ("A"), 2 ("B"), 3 ("C") attached
front-to-back; `traverse` yields exactly
`enter(0), leaf(1), leaf(2), leaf(3), exit(0)`. -/
theorem traverse_depth_first_events_witness :
    Realized (applyInserts 0 (setRoot (mkContainer emptyStore 0 7) 0)
        [(none, 1), (some 1, 2), (some 2, 3)])
      (TreeShape.node 0 (TreeList.cons (TreeShape.leaf 1)
        (TreeList.cons (TreeShape.leaf 2) (TreeList.cons (TreeShape.leaf 3) TreeList.nil))))
      (true, 0)
    ∧ traverseList (applyInserts 0 (setRoot (mkContainer emptyStore 0 7) 0)
        [(none, 1), (some 1, 2), (some 2, 3)]) 0 10
      = [(TEvent.enter, 0), (TEvent.leaf, 1), (TEvent.leaf, 2), (TEvent.leaf, 3),
          (TEvent.exit, 0)] := by
  have hreal : Realized (applyInserts 0 (setRoot (mkContainer emptyStore 0 7) 0)
      [(none, 1), (some 1, 2), (some 2, 3)])
      (TreeShape.node 0 (TreeList.cons (TreeShape.leaf 1)
        (TreeList.cons (TreeShape.leaf 2) (TreeList.cons (TreeShape.leaf 3) TreeList.nil))))
      (true, 0) :=
    ⟨by decide, by decide, by decide,
      ⟨by decide, by decide⟩, ⟨by decide, by decide⟩, ⟨by decide, by decide⟩, trivial⟩
  have hnd : (ids (TreeShape.node 0 (TreeList.cons (TreeShape.leaf 1)
      (TreeList.cons (TreeShape.leaf 2) (TreeList.cons (TreeShape.leaf 3) TreeList.nil))))).Nodup :=
    by decide
  have h := (traverse_depth_first_events (k := 5) hreal hnd).1
  refine ⟨hreal, ?_⟩
  have hlen : (flat (TreeShape.node 0 (TreeList.cons (TreeShape.leaf 1)
      (TreeList.cons (TreeShape.leaf 2) (TreeList.cons (TreeShape.leaf 3)
        TreeList.nil))))).length + 5 = 10 := by decide
  rw [hlen] at h
  rw [h]
  decide

theorem land_two_pow_sub_one (x m : Nat) : x &&& (2 ^ m - 1) = x % 2 ^ m :=
  Nat.and_pow_two_sub_one_eq_mod x m

theorem probeAt_lt {cap : Nat} (h x : Nat) (hcap : 0 < cap) : probeAt cap h x < cap :=
  Nat.mod_lt _ hcap

theorem probeAt_succ (cap h x : Nat) : (probeAt cap h x + 1) % cap = probeAt cap h (x + 1) := by
  simp [probeAt, Nat.mod_add_mod, Nat.add_assoc]

theorem probeAt_zero (cap h : Nat) : probeAt cap h 0 = h % cap := by
  simp [probeAt]

/-- The probe loop, started anywhere on the probe sequence of `key`, runs to
the first stopping slot and reports it, with the valid bit saying whether it
stopped on an equal entry rather than an unoccupied slot. -/
theorem lookupAux_stop_step {α : Type} (tr : HashTraits α) (t : List α) (key : α) {m : Nat}
    (hcap : t.length = 2 ^ m) :
    ∀ (d x fuel h : Nat),
      stopAt tr t key (probeAt t.length h (x + d)) →
      (∀ y < d, ¬ stopAt tr t key (probeAt t.length h (x + y))) →
      d < fuel →
      lookupEntryAux tr t key fuel (probeAt t.length h x)
        = some (probeAt t.length h (x + d),
            !(tr.isUnoccupied (t.getD (probeAt t.length h (x + d)) tr.unoccupied))) := by
  intro d
  induction d with
  | zero =>
    intro x fuel h hstop _ hfuel
    obtain ⟨f, rfl⟩ : ∃ f, fuel = f + 1 := ⟨fuel - 1, by omega⟩
    simp only [Nat.add_zero] at hstop ⊢
    simp only [lookupEntryAux]
    rcases hstop with hs | hs
    · rw [if_pos hs, hs]
      rfl
    · by_cases hun : tr.isUnoccupied (t.getD (probeAt t.length h x) tr.unoccupied) = true
      · rw [if_pos hun, hun]
        rfl
      · have hun' : tr.isUnoccupied (t.getD (probeAt t.length h x) tr.unoccupied) = false := by
          simpa using hun
        rw [if_neg hun, if_pos hs, hun']
        rfl
  | succ d ih =>
    intro x fuel h hstop hmin hfuel
    obtain ⟨f, rfl⟩ : ∃ f, fuel = f + 1 := ⟨fuel - 1, by omega⟩
    have hnostop : ¬ stopAt tr t key (probeAt t.length h x) := by
      have := hmin 0 (by omega)
      simpa using this
    simp only [stopAt, not_or, Bool.not_eq_true] at hnostop
    simp only [lookupEntryAux]
    rw [if_neg (by rw [hnostop.1]; simp), if_neg (by rw [hnostop.2]; simp)]
    rw [hcap, land_two_pow_sub_one, ← hcap, probeAt_succ]
    have harr : x + 1 + d = x + (d + 1) := by omega
    have := ih (x + 1) f h (by rw [harr]; exact hstop)
      (fun y hy => by
        have := hmin (y + 1) (by omega)
        have harr2 : x + (y + 1) = x + 1 + y := by omega
        rw [harr2] at this
        exact this) (by omega)
    rw [harr] at this
    exact this

/-- `lookup_entry` at the first stopping slot of the key's probe sequence. -/
theorem lookupEntry_of_stop {α : Type} (tr : HashTraits α) (ht : HashTable α) (key : α)
    {m : Nat} (hcap : ht.table.length = 2 ^ m) (d : Nat)
    (hd : d < ht.table.length)
    (hstop : stopAt tr ht.table key (probeAt ht.table.length (tr.hash key) d))
    (hmin : ∀ y < d, ¬ stopAt tr ht.table key (probeAt ht.table.length (tr.hash key) y)) :
    lookupEntry tr ht key = some (probeAt ht.table.length (tr.hash key) d,
      !(tr.isUnoccupied (ht.table.getD (probeAt ht.table.length (tr.hash key) d)
          tr.unoccupied))) := by
  have := lookupAux_stop_step tr ht.table key hcap d 0 ht.table.length (tr.hash key)
    (by simpa using hstop) (by simpa using hmin) hd
  simp only [Nat.zero_add] at this
  rw [lookupEntry, hcap, land_two_pow_sub_one, ← hcap, ← probeAt_zero]
  exact this

/-- Inversion: any result of the probe loop is the first stopping slot of the
probe sequence from the starting index. -/
theorem lookupAux_inv {α : Type} (tr : HashTraits α) (t : List α) (key : α) {m : Nat}
    (hcap : t.length = 2 ^ m) :
    ∀ (fuel x h : Nat) (j : Nat) (b : Bool),
      lookupEntryAux tr t key fuel (probeAt t.length h x) = some (j, b) →
      ∃ d < fuel, j = probeAt t.length h (x + d)
        ∧ (∀ y < d, ¬ stopAt tr t key (probeAt t.length h (x + y)))
        ∧ stopAt tr t key j
        ∧ b = !(tr.isUnoccupied (t.getD j tr.unoccupied)) := by
  intro fuel
  induction fuel with
  | zero => intro x h j b hres; simp [lookupEntryAux] at hres
  | succ f ih =>
    intro x h j b hres
    simp only [lookupEntryAux] at hres
    by_cases hun : tr.isUnoccupied (t.getD (probeAt t.length h x) tr.unoccupied) = true
    · rw [if_pos hun] at hres
      have hpair := Option.some.inj hres
      have hj : probeAt t.length h x = j := congrArg Prod.fst hpair
      have hb : false = b := congrArg Prod.snd hpair
      subst hj
      subst hb
      refine ⟨0, by omega, by simp, fun y hy => absurd hy (by omega), Or.inl hun, by rw [hun]; rfl⟩
    · rw [if_neg hun] at hres
      by_cases heq : tr.isEq (t.getD (probeAt t.length h x) tr.unoccupied) key = true
      · rw [if_pos heq] at hres
        have hpair := Option.some.inj hres
        have hj : probeAt t.length h x = j := congrArg Prod.fst hpair
        have hb : true = b := congrArg Prod.snd hpair
        subst hj
        subst hb
        have hun' : tr.isUnoccupied (t.getD (probeAt t.length h x) tr.unoccupied) = false := by
          simpa using hun
        refine ⟨0, by omega, by simp, fun y hy => absurd hy (by omega), Or.inr heq,
          by rw [hun']; rfl⟩
      · rw [if_neg heq] at hres
        rw [hcap, land_two_pow_sub_one, ← hcap, probeAt_succ] at hres
        obtain ⟨d, hdf, hd1, hd2, hd3, hd4⟩ := ih (x + 1) h j b hres
        refine ⟨d + 1, by omega, by rw [hd1]; congr 1; omega, ?_, hd3, hd4⟩
        intro y hy
        cases y with
        | zero =>
          simp only [Nat.add_zero, stopAt, not_or, Bool.not_eq_true]
          have hun' : tr.isUnoccupied (t.getD (probeAt t.length h x) tr.unoccupied) = false := by
            simpa using hun
          exact ⟨hun', by simpa using heq⟩
        | succ y' =>
          have := hd2 y' (by omega)
          have harr : x + (y' + 1) = x + 1 + y' := by omega
          rw [harr]
          exact this

/-- Inversion for `lookup_entry` itself. -/
theorem lookupEntry_inv {α : Type} (tr : HashTraits α) (ht : HashTable α) (key : α)
    {m : Nat} (hcap : ht.table.length = 2 ^ m) (j : Nat) (b : Bool)
    (hres : lookupEntry tr ht key = some (j, b)) :
    ∃ d < ht.table.length, j = probeAt ht.table.length (tr.hash key) d
      ∧ (∀ y < d, ¬ stopAt tr ht.table key (probeAt ht.table.length (tr.hash key) y))
      ∧ stopAt tr ht.table key j
      ∧ b = !(tr.isUnoccupied (ht.table.getD j tr.unoccupied)) := by
  rw [lookupEntry, hcap, land_two_pow_sub_one, ← hcap, ← probeAt_zero] at hres
  have := lookupAux_inv tr ht.table key hcap ht.table.length 0 (tr.hash key) j b hres
  simpa using this

theorem probeAt_mod (cap h x : Nat) : probeAt cap (h % cap) x = probeAt cap h x := by
  simp [probeAt, Nat.mod_add_mod]

theorem getD_set_self {α : Type} :
    ∀ (l : List α) (i : Nat) (v d : α), i < l.length → (l.set i v).getD i d = v
  | [], i, v, d, h => by simp at h
  | a :: l, 0, v, d, _ => by simp
  | a :: l, i + 1, v, d, h => by
    simp only [List.set, List.getD_cons_succ]
    exact getD_set_self l i v d (by simpa using h)

theorem getD_set_other {α : Type} :
    ∀ (l : List α) (i j : Nat) (v d : α), j ≠ i → (l.set i v).getD j d = l.getD j d
  | [], _, _, _, _, _ => by simp
  | a :: l, 0, 0, v, d, h => absurd rfl h
  | a :: l, 0, j + 1, v, d, _ => by simp [List.getD_cons_succ]
  | a :: l, i + 1, 0, v, d, _ => by simp [List.getD_cons_zero]
  | a :: l, i + 1, j + 1, v, d, h => by
    simp only [List.set, List.getD_cons_succ]
    exact getD_set_other l i j v d (fun hh => h (by rw [hh]))

theorem countP_lt_exists_false {α : Type} (p : α → Bool) (d : α) :
    ∀ l : List α, l.countP p < l.length → ∃ i < l.length, p (l.getD i d) = false
  | [], h => by simp at h
  | a :: l, h => by
    by_cases hpa : p a = true
    · rw [List.countP_cons_of_pos _ _ hpa] at h
      obtain ⟨i, hi, hpi⟩ := countP_lt_exists_false p d l (by simp at h; omega)
      exact ⟨i + 1, by simpa using hi, by simpa [List.getD_cons_succ] using hpi⟩
    · exact ⟨0, by simp, by simpa using hpa⟩

theorem countP_set_incr {α : Type} (p : α → Bool) (d v : α) :
    ∀ (l : List α) (i : Nat), i < l.length → p (l.getD i d) = false → p v = true →
      (l.set i v).countP p = l.countP p + 1
  | [], i, h, _, _ => by simp at h
  | a :: l, 0, _, hpa, hpv => by
    have hpa' : ¬ p a = true := by
      simp only [List.getD_cons_zero] at hpa
      simp [hpa]
    simp only [List.set]
    rw [List.countP_cons_of_pos _ _ hpv, List.countP_cons_of_neg _ _ hpa']
  | a :: l, i + 1, h, hpi, hpv => by
    have hrec := countP_set_incr p d v l i (by simpa using h)
      (by simpa [List.getD_cons_succ] using hpi) hpv
    simp only [List.set]
    by_cases hpa : p a = true
    · rw [List.countP_cons_of_pos _ _ hpa, List.countP_cons_of_pos _ _ hpa, hrec]
    · rw [List.countP_cons_of_neg _ _ hpa, List.countP_cons_of_neg _ _ hpa, hrec]

theorem getD_replicate_self {α : Type} (u : α) :
    ∀ (n i : Nat), (List.replicate n u).getD i u = u
  | 0, _ => by simp
  | n + 1, 0 => by simp
  | n + 1, i + 1 => by
    simp only [List.replicate, List.getD_cons_succ]
    exact getD_replicate_self u n i

theorem countP_replicate_false {α : Type} (p : α → Bool) (u : α) (h : p u = false) :
    ∀ n, (List.replicate n u).countP p = 0
  | 0 => by simp
  | n + 1 => by
    simp only [List.replicate]
    rw [List.countP_cons_of_neg _ _ (by simp [h]), countP_replicate_false p u h n]

/-- A well-formed table has an unoccupied slot. -/
theorem exists_unocc_slot {α : Type} (tr : HashTraits α) (ht : HashTable α)
    (hwf : TableWF tr ht) :
    ∃ u < ht.table.length, tr.isUnoccupied (ht.table.getD u tr.unoccupied) = true := by
  have hlt : ht.table.countP (fun e => !tr.isUnoccupied e) < ht.table.length := by
    rw [← hwf.size_eq]
    exact hwf.size_lt
  obtain ⟨i, hi, hpi⟩ := countP_lt_exists_false (fun e => !tr.isUnoccupied e) tr.unoccupied
    ht.table hlt
  refine ⟨i, hi, ?_⟩
  simpa using hpi

/-- Every slot is on every probe sequence: the probe from `h` reaches slot
`u` after `(u + cap - h % cap) % cap` steps. -/
theorem probeAt_reaches (cap h u : Nat) (hpos : 0 < cap) (hu : u < cap) :
    probeAt cap h ((u + cap - h % cap) % cap) = u := by
  have hhm : h % cap < cap := Nat.mod_lt _ hpos
  have hx : h + (u + cap - h % cap) = cap * (h / cap) + (u + cap) := by
    have hdm := Nat.mod_add_div h cap
    omega
  rw [probeAt, Nat.add_mod_mod, hx, Nat.mul_add_mod, Nat.add_mod_right, Nat.mod_eq_of_lt hu]

/-- With an unoccupied slot somewhere, every probe sequence has a stop. -/
theorem exists_stop {α : Type} (tr : HashTraits α) (ht : HashTable α) (key : α)
    (hwf : TableWF tr ht) :
    ∃ x < ht.table.length,
      stopAt tr ht.table key (probeAt ht.table.length (tr.hash key) x) := by
  obtain ⟨u, hu, huno⟩ := exists_unocc_slot tr ht hwf
  obtain ⟨m, hm⟩ := hwf.cap_pow
  have hpos : 0 < ht.table.length := by rw [hm]; exact Nat.pos_pow_of_pos m (by omega)
  refine ⟨(u + ht.table.length - tr.hash key % ht.table.length) % ht.table.length,
    Nat.mod_lt _ hpos, ?_⟩
  rw [probeAt_reaches _ _ _ hpos hu]
  exact Or.inl huno

/-- `lookup_entry` terminates (returns a handle) on a well-formed table. -/
theorem lookupEntry_some {α : Type} (tr : HashTraits α) (ht : HashTable α) (key : α)
    (hwf : TableWF tr ht) :
    ∃ j b, lookupEntry tr ht key = some (j, b) := by
  obtain ⟨m, hm⟩ := hwf.cap_pow
  obtain ⟨x, hx, hstop⟩ := exists_stop tr ht key hwf
  have hex : ∃ y, stopAt tr ht.table key (probeAt ht.table.length (tr.hash key) y) := ⟨x, hstop⟩
  have hd := Nat.find_spec hex
  have hdx : Nat.find hex ≤ x := Nat.find_min' hex hstop
  refine ⟨probeAt ht.table.length (tr.hash key) (Nat.find hex), _,
    lookupEntry_of_stop tr ht key hm (Nat.find hex) (by omega) hd
      (fun y hy => Nat.find_min hex hy)⟩

/-- A found handle means an equal occupied entry. -/
theorem foundIn_present {α : Type} (tr : HashTraits α) (ht : HashTable α) (key : α)
    {m : Nat} (hcap : ht.table.length = 2 ^ m)
    (hfound : foundIn tr ht key) : present tr ht key := by
  obtain ⟨j, hres⟩ := hfound
  obtain ⟨d, hdlen, hj, _, hstop, hb⟩ := lookupEntry_inv tr ht key hcap j true hres
  have hocc : tr.isUnoccupied (ht.table.getD j tr.unoccupied) = false := by
    cases hh : tr.isUnoccupied (ht.table.getD j tr.unoccupied) with
    | false => rfl
    | true => rw [hh] at hb; simp at hb
  have hpos : 0 < ht.table.length := by rw [hcap]; exact Nat.pos_pow_of_pos m (by omega)
  refine ⟨j, by rw [hj]; exact probeAt_lt _ _ hpos, hocc, ?_⟩
  rcases hstop with hs | hs
  · rw [hs] at hocc; simp at hocc
  · exact hs

/-- The central lookup correctness result: a present key is found (the probe
from its hash crosses only occupied slots until it meets an equal entry). -/
theorem present_found {α : Type} (tr : HashTraits α) (ht : HashTable α) (key : α)
    (hwf : TableWF tr ht) (hcong : HashCongr tr)
    (hp : present tr ht key) : foundIn tr ht key := by
  obtain ⟨j, hjlen, hocc, heq⟩ := hp
  obtain ⟨m, hm⟩ := hwf.cap_pow
  have hhash : tr.hash (ht.table.getD j tr.unoccupied) = tr.hash key :=
    hcong _ _ heq
  obtain ⟨d, hd, hj, hpath⟩ := hwf.stored_path j hjlen hocc
  rw [probeAt_mod, hhash] at hj
  have hstopd : stopAt tr ht.table key (probeAt ht.table.length (tr.hash key) d) := by
    rw [← hj]
    exact Or.inr heq
  have hex : ∃ y, stopAt tr ht.table key (probeAt ht.table.length (tr.hash key) y) :=
    ⟨d, hstopd⟩
  have hfd := Nat.find_spec hex
  have hfdle : Nat.find hex ≤ d := Nat.find_min' hex hstopd
  have hres := lookupEntry_of_stop tr ht key hm (Nat.find hex) (by omega) hfd
    (fun y hy => Nat.find_min hex hy)
  refine ⟨probeAt ht.table.length (tr.hash key) (Nat.find hex), ?_⟩
  rw [hres]
  congr 2
  -- the stopping slot is occupied, so the handle is valid
  rcases Nat.lt_or_ge (Nat.find hex) d with hlt | hge
  · have := hpath (Nat.find hex) hlt
    rw [probeAt_mod, hhash] at this
    rw [slotOcc] at this
    rw [this]
    rfl
  · have hfdeq : Nat.find hex = d := by omega
    rw [hfdeq, ← hj]
    rw [slotOcc] at hocc
    rw [hocc]
    rfl

/-- Creating a new entry at a not-found handle preserves the invariant; the
new key is now stored literally, and every occupied value stays put. -/
theorem create_notfound {α : Type} (tr : HashTraits α) (ht : HashTable α) (k : α)
    {m : Nat} (hcap : ht.table.length = 2 ^ m)
    (hwf : TableWF tr ht) (hk1 : tr.isUnoccupied k = false) (hk2 : tr.isEq k k = true)
    (hno1 : ∀ j2 < ht.table.length, slotOcc tr ht.table j2 →
        tr.isEq (ht.table.getD j2 tr.unoccupied) k = false)
    (hno2 : ∀ j2 < ht.table.length, slotOcc tr ht.table j2 →
        tr.isEq k (ht.table.getD j2 tr.unoccupied) = false)
    (j : Nat) (hres : lookupEntry tr ht k = some (j, false))
    (hsz : ht.size + 1 < ht.table.length) :
    TableWF tr (create ht j k)
      ∧ (create ht j k).table.length = ht.table.length
      ∧ (create ht j k).size = ht.size + 1
      ∧ (∀ v, tr.isUnoccupied v = false →
          (∃ j2 < ht.table.length, ht.table.getD j2 tr.unoccupied = v) →
          ∃ j2 < (create ht j k).table.length,
            (create ht j k).table.getD j2 tr.unoccupied = v)
      ∧ (∃ j2 < (create ht j k).table.length,
          (create ht j k).table.getD j2 tr.unoccupied = k)
      ∧ (∀ p < ht.table.length, slotOcc tr (create ht j k).table p →
          (create ht j k).table.getD p tr.unoccupied = k
            ∨ ((create ht j k).table.getD p tr.unoccupied = ht.table.getD p tr.unoccupied
                ∧ slotOcc tr ht.table p)) := by
  have hpos : 0 < ht.table.length := by rw [hcap]; exact Nat.pos_pow_of_pos m (by omega)
  obtain ⟨d, hdlen, hjd, hmind, hstopj, hb⟩ := lookupEntry_inv tr ht k hcap j false hres
  have hjlen : j < ht.table.length := by rw [hjd]; exact probeAt_lt _ _ hpos
  have hjun : tr.isUnoccupied (ht.table.getD j tr.unoccupied) = true := by
    cases hh : tr.isUnoccupied (ht.table.getD j tr.unoccupied) with
    | true => rfl
    | false => rw [hh] at hb; simp at hb
  have hlen : (create ht j k).table.length = ht.table.length := by
    simp [create]
  have hget_self : (create ht j k).table.getD j tr.unoccupied = k :=
    getD_set_self ht.table j k tr.unoccupied hjlen
  have hget_other : ∀ p, p ≠ j →
      (create ht j k).table.getD p tr.unoccupied = ht.table.getD p tr.unoccupied :=
    fun p hp => getD_set_other ht.table j p k tr.unoccupied hp
  -- an old occupied slot is never `j`
  have hocc_ne : ∀ p, slotOcc tr ht.table p → p ≠ j := by
    intro p hpocc hpj
    rw [slotOcc, hpj, hjun] at hpocc
    simp at hpocc
  have hocc_new_old : ∀ p, slotOcc tr (create ht j k).table p → p = j ∨ slotOcc tr ht.table p := by
    intro p hp
    by_cases hpj : p = j
    · exact Or.inl hpj
    · right
      rw [slotOcc, ← hget_other p hpj]
      exact hp
  have hocc_old_new : ∀ p, slotOcc tr ht.table p → slotOcc tr (create ht j k).table p := by
    intro p hp
    rw [slotOcc, hget_other p (hocc_ne p hp)]
    exact hp
  have hocc_j_new : slotOcc tr (create ht j k).table j := by
    rw [slotOcc, hget_self]
    exact hk1
  refine ⟨⟨?_, ?_, ?_, ?_, ?_, ?_⟩, hlen, rfl, ?_, ?_, ?_⟩
  · rw [hlen]; exact hwf.cap_pow
  · show ht.size + 1 = (ht.table.set j k).countP (fun e => !tr.isUnoccupied e)
    rw [countP_set_incr (fun e => !tr.isUnoccupied e) tr.unoccupied k ht.table j hjlen
      (by simp only [hjun]; rfl) (by simp only [hk1]; rfl), ← hwf.size_eq]
  · rw [hlen]; exact hsz
  · -- stored_path
    intro p hp hpocc
    rw [hlen] at hp
    rcases hocc_new_old p hpocc with hpj | hpold
    · -- the new key's path is the probe prefix the lookup crossed
      rw [hpj]
      refine ⟨d, by rw [hlen]; omega, ?_, ?_⟩
      · rw [hlen, hget_self, probeAt_mod]
        exact hjd
      · intro y hy
        have hnostop := hmind y hy
        simp only [stopAt, not_or, Bool.not_eq_true] at hnostop
        have hpy_ne : probeAt ht.table.length (tr.hash k) y ≠ j := by
          intro hh
          rw [hh, hjun] at hnostop
          simp at hnostop
        rw [hlen, hget_self, probeAt_mod, slotOcc, hget_other _ hpy_ne]
        exact hnostop.1
    · obtain ⟨d', hd', hp', hpath'⟩ := hwf.stored_path p hp hpold
      have hpvj : p ≠ j := hocc_ne p hpold
      refine ⟨d', by rw [hlen]; omega, ?_, ?_⟩
      · rw [hlen, hget_other p hpvj]
        exact hp'
      · intro y hy
        have := hpath' y hy
        have hyne : probeAt ht.table.length
            (tr.hash (ht.table.getD p tr.unoccupied) % ht.table.length) y ≠ j :=
          hocc_ne _ this
        rw [hlen, hget_other p hpvj, slotOcc, hget_other _ hyne]
        exact this
  · intro p hp hpocc
    rw [hlen] at hp
    rcases hocc_new_old p hpocc with hpj | hpold
    · rw [hpj, hget_self]
      exact hk2
    · rw [hget_other p (hocc_ne p hpold)]
      exact hwf.refl_stored p hp hpold
  · intro j1 hj1 j2 hj2 hocc1 hocc2 heq12
    rw [hlen] at hj1 hj2
    rcases hocc_new_old j1 hocc1 with h1j | h1old
    · rcases hocc_new_old j2 hocc2 with h2j | h2old
      · rw [h1j, h2j]
      · rw [h1j, hget_self, hget_other j2 (hocc_ne j2 h2old),
          hno2 j2 hj2 h2old] at heq12
        simp at heq12
    · rcases hocc_new_old j2 hocc2 with h2j | h2old
      · rw [h2j, hget_self, hget_other j1 (hocc_ne j1 h1old),
          hno1 j1 hj1 h1old] at heq12
        simp at heq12
      · rw [hget_other j1 (hocc_ne j1 h1old), hget_other j2 (hocc_ne j2 h2old)] at heq12
        exact hwf.distinct j1 hj1 j2 hj2 h1old h2old heq12
  · intro v hv hex2
    obtain ⟨j2, hj2, hj2v⟩ := hex2
    have hj2occ : slotOcc tr ht.table j2 := by rw [slotOcc, hj2v]; exact hv
    refine ⟨j2, by rw [hlen]; omega, ?_⟩
    rw [hget_other j2 (hocc_ne j2 hj2occ)]
    exact hj2v
  · exact ⟨j, by rw [hlen]; omega, hget_self⟩
  · intro p hp hpocc
    rcases hocc_new_old p hpocc with hpj | hpold
    · left
      rw [hpj, hget_self]
    · right
      exact ⟨hget_other p (hocc_ne p hpold), hpold⟩

/-- The reinsertion loop of `rehash` maintains the invariant: starting from a
well-formed accumulator whose occupied values all come from `done`, inserting
the (pairwise-distinct) values `es` keeps the table well formed, adds exactly
the occupied values of `es`, and retains every previously contained value. -/
theorem insertList_spec {α : Type} (tr : HashTraits α) :
    ∀ (es : List α) (acc : HashTable α) (done : List α),
      TableWF tr acc →
      (∀ p < acc.table.length, slotOcc tr acc.table p →
          acc.table.getD p tr.unoccupied ∈ done) →
      PairwiseOK tr (done ++ es) →
      (∀ e ∈ done ++ es, tr.isUnoccupied e = false → tr.isEq e e = true) →
      acc.size + es.countP (fun e => !tr.isUnoccupied e) < acc.table.length →
      TableWF tr (insertList tr acc es)
        ∧ (insertList tr acc es).table.length = acc.table.length
        ∧ (insertList tr acc es).size
            = acc.size + es.countP (fun e => !tr.isUnoccupied e)
        ∧ (∀ p < (insertList tr acc es).table.length,
            slotOcc tr (insertList tr acc es).table p →
            (insertList tr acc es).table.getD p tr.unoccupied ∈ done ++ es)
        ∧ (∀ v, tr.isUnoccupied v = false →
            (∃ p < acc.table.length, acc.table.getD p tr.unoccupied = v) →
            ∃ p < (insertList tr acc es).table.length,
              (insertList tr acc es).table.getD p tr.unoccupied = v)
        ∧ (∀ e ∈ es, tr.isUnoccupied e = false →
            ∃ p < (insertList tr acc es).table.length,
              (insertList tr acc es).table.getD p tr.unoccupied = e)
  | [], acc, done, hwf, hmem, _, _, _ => by
    refine ⟨hwf, rfl, by simp [insertList], ?_, fun v _ hc => hc, fun e he => by simp at he⟩
    intro p hp hpocc
    exact List.mem_append_left _ (hmem p hp hpocc)
  | e :: es, acc, done, hwf, hmem, hpw, hgood, hbound => by
    have hrearr : done ++ e :: es = (done ++ [e]) ++ es := by simp
    by_cases hue : tr.isUnoccupied e = true
    · -- unoccupied source slot: skipped
      have hstep : insertList tr acc (e :: es) = insertList tr acc es := by
        rw [insertList, if_pos hue]
      have hcount : (e :: es).countP (fun x => !tr.isUnoccupied x)
          = es.countP (fun x => !tr.isUnoccupied x) := by
        rw [List.countP_cons_of_neg]
        simp [hue]
      have hmem' : ∀ p < acc.table.length, slotOcc tr acc.table p →
          acc.table.getD p tr.unoccupied ∈ done ++ [e] :=
        fun p hp hpo => List.mem_append_left _ (hmem p hp hpo)
      have hpw' : PairwiseOK tr ((done ++ [e]) ++ es) := by rw [← hrearr]; exact hpw
      have hgood' : ∀ x ∈ (done ++ [e]) ++ es, tr.isUnoccupied x = false →
          tr.isEq x x = true := by rw [← hrearr]; exact hgood
      obtain ⟨h1, h2, h3, h4, h5, h6⟩ :=
        insertList_spec tr es acc (done ++ [e]) hwf hmem' hpw' hgood'
          (by rw [← hcount]; exact hbound)
      rw [hstep]
      refine ⟨h1, h2, by rw [h3, hcount], ?_, h5, ?_⟩
      · intro p hp hpo
        have := h4 p hp hpo
        rw [← hrearr] at this
        exact this
      · intro x hx hxu
        rcases List.mem_cons.mp hx with hx | hx
        · rw [hx] at hxu
          rw [hxu] at hue
          simp at hue
        · exact h6 x hx hxu
    · -- occupied source entry: re-insert it
      have hue' : tr.isUnoccupied e = false := by
        cases hh : tr.isUnoccupied e with
        | false => rfl
        | true => exact absurd hh hue
      obtain ⟨m, hm⟩ := hwf.cap_pow
      obtain ⟨j, b, hres⟩ := lookupEntry_some tr acc e hwf
      have hpwsplit := (List.pairwise_append.mp hpw)
      have hdone_e : ∀ w ∈ done, tr.isUnoccupied w = false →
          tr.isEq w e = false ∧ tr.isEq e w = false := by
        intro w hw hwocc
        exact hpwsplit.2.2 w hw e (by simp) hwocc hue'
      have hbfalse : b = false := by
        cases b with
        | false => rfl
        | true =>
          have hpres := foundIn_present tr acc e hm ⟨j, hres⟩
          obtain ⟨p, hp, hpo, hpe⟩ := hpres
          have hw := hmem p hp hpo
          have := (hdone_e _ hw hpo).1
          rw [this] at hpe
          simp at hpe
      rw [hbfalse] at hres
      have hcount : (e :: es).countP (fun x => !tr.isUnoccupied x)
          = es.countP (fun x => !tr.isUnoccupied x) + 1 := by
        rw [List.countP_cons_of_pos]
        simp [hue']
      have hsz1 : acc.size + 1 < acc.table.length := by
        rw [hcount] at hbound
        omega
      have hno1 : ∀ j2 < acc.table.length, slotOcc tr acc.table j2 →
          tr.isEq (acc.table.getD j2 tr.unoccupied) e = false := by
        intro j2 hj2 hj2o
        exact (hdone_e _ (hmem j2 hj2 hj2o) hj2o).1
      have hno2 : ∀ j2 < acc.table.length, slotOcc tr acc.table j2 →
          tr.isEq e (acc.table.getD j2 tr.unoccupied) = false := by
        intro j2 hj2 hj2o
        exact (hdone_e _ (hmem j2 hj2 hj2o) hj2o).2
      have hrefl_e : tr.isEq e e = true :=
        hgood e (by simp) hue'
      obtain ⟨hwf', hlen', hsize', hkeep', hnew', hslots'⟩ :=
        create_notfound tr acc e hm hwf hue' hrefl_e hno1 hno2 j hres hsz1
      have hstep : insertList tr acc (e :: es)
          = insertList tr (create acc j e) es := by
        rw [insertList, if_neg hue, hres]
      have hmem'' : ∀ p < (create acc j e).table.length,
          slotOcc tr (create acc j e).table p →
          (create acc j e).table.getD p tr.unoccupied ∈ done ++ [e] := by
        intro p hp hpo
        rw [hlen'] at hp
        rcases hslots' p hp hpo with hh | hh
        · rw [hh]
          simp
        · rw [hh.1]
          exact List.mem_append_left _ (hmem p hp (hh.2))
      have hpw' : PairwiseOK tr ((done ++ [e]) ++ es) := by rw [← hrearr]; exact hpw
      have hgood' : ∀ x ∈ (done ++ [e]) ++ es, tr.isUnoccupied x = false →
          tr.isEq x x = true := by rw [← hrearr]; exact hgood
      obtain ⟨h1, h2, h3, h4, h5, h6⟩ :=
        insertList_spec tr es (create acc j e) (done ++ [e]) hwf' hmem'' hpw' hgood'
          (by rw [hlen', hsize']; rw [hcount] at hbound; omega)
      rw [hstep]
      refine ⟨h1, by rw [h2, hlen'], by rw [h3, hsize', hcount]; omega, ?_, ?_, ?_⟩
      · intro p hp hpo
        have := h4 p hp hpo
        rw [← hrearr] at this
        exact this
      · intro v hv hc
        exact h5 v hv (hkeep' v hv hc)
      · intro x hx hxu
        rcases List.mem_cons.mp hx with hx | hx
        · obtain ⟨p, hp, hpe⟩ := hnew'
          exact h5 x hxu ⟨p, hp, by rw [hx]; exact hpe⟩
        · exact h6 x hx hxu

theorem pairwiseOK_of_wf {α : Type} (tr : HashTraits α) (ht : HashTable α)
    (hwf : TableWF tr ht) : PairwiseOK tr ht.table := by
  rw [PairwiseOK, List.pairwise_iff_getElem]
  intro i j hi hj hij ho1 ho2
  have hgi : ht.table[i] = ht.table.getD i tr.unoccupied := (List.getD_eq_getElem _ _ hi).symm
  have hgj : ht.table[j] = ht.table.getD j tr.unoccupied := (List.getD_eq_getElem _ _ hj).symm
  rw [hgi] at ho1 ⊢
  rw [hgj] at ho2 ⊢
  constructor
  · cases hh : tr.isEq (ht.table.getD i tr.unoccupied) (ht.table.getD j tr.unoccupied) with
    | false => rfl
    | true =>
      have := hwf.distinct i hi j hj ho1 ho2 hh
      omega
  · cases hh : tr.isEq (ht.table.getD j tr.unoccupied) (ht.table.getD i tr.unoccupied) with
    | false => rfl
    | true =>
      have := hwf.distinct j hj i hi ho2 ho1 hh
      omega

theorem good_of_wf {α : Type} (tr : HashTraits α) (ht : HashTable α)
    (hwf : TableWF tr ht) :
    ∀ e ∈ ht.table, tr.isUnoccupied e = false → tr.isEq e e = true := by
  intro e he hocc
  obtain ⟨i, hi, hie⟩ := List.getElem_of_mem he
  have hg : ht.table.getD i tr.unoccupied = e := by
    rw [List.getD_eq_getElem _ _ hi, hie]
  rw [← hg]
  rw [← hg] at hocc
  exact hwf.refl_stored i hi hocc

theorem present_mono {α : Type} (tr : HashTraits α) (h1 h2 : HashTable α)
    (hk : ∀ v, tr.isUnoccupied v = false →
        (∃ p < h1.table.length, h1.table.getD p tr.unoccupied = v) →
        ∃ p < h2.table.length, h2.table.getD p tr.unoccupied = v) :
    ∀ q, present tr h1 q → present tr h2 q := by
  intro q hq
  obtain ⟨j, hj, hocc, heq⟩ := hq
  obtain ⟨p, hp, hpv⟩ := hk _ hocc ⟨j, hj, rfl⟩
  exact ⟨p, hp, by rw [slotOcc, hpv]; exact hocc, by rw [hpv]; exact heq⟩

/-- `rehash` into a strictly larger power-of-two capacity: the result is
well formed, has the same size, the requested capacity, and retains every
present key. -/
theorem rehash_spec {α : Type} (tr : HashTraits α) (ht : HashTable α) (newCap : Nat)
    {q : Nat} (hq : newCap = 2 ^ q)
    (hu : tr.isUnoccupied tr.unoccupied = true)
    (hgrow : ht.table.length < newCap)
    (hprev : TableWF tr ht ∨ (ht.table = [] ∧ ht.size = 0)) :
    TableWF tr (rehashHT tr ht newCap)
      ∧ (rehashHT tr ht newCap).table.length = newCap
      ∧ (rehashHT tr ht newCap).size = ht.size
      ∧ (∀ k, present tr ht k → present tr (rehashHT tr ht newCap) k) := by
  have hnc_pos : 0 < newCap := by rw [hq]; exact Nat.pos_pow_of_pos q (by omega)
  have hinit_len : (List.replicate newCap tr.unoccupied).length = newCap := by simp
  have hinit_occ : ∀ p, ¬ slotOcc tr (List.replicate newCap tr.unoccupied) p := by
    intro p hpo
    rw [slotOcc, getD_replicate_self, hu] at hpo
    simp at hpo
  have hinit_wf : TableWF tr { table := List.replicate newCap tr.unoccupied, size := 0 } := by
    refine ⟨⟨q, by simpa using hq⟩, ?_, by simpa using hnc_pos, ?_, ?_, ?_⟩
    · show 0 = (List.replicate newCap tr.unoccupied).countP _
      rw [countP_replicate_false _ _ (by rw [hu]; rfl)]
    · intro j _ hjo
      exact absurd hjo (hinit_occ j)
    · intro j _ hjo
      exact absurd hjo (hinit_occ j)
    · intro j1 _ j2 _ h1 _ _
      exact absurd h1 (hinit_occ j1)
  have hpw : PairwiseOK tr ([] ++ ht.table) := by
    rcases hprev with hw | he
    · simpa using pairwiseOK_of_wf tr ht hw
    · rw [he.1]
      exact List.Pairwise.nil
  have hgood : ∀ e ∈ [] ++ ht.table, tr.isUnoccupied e = false → tr.isEq e e = true := by
    rcases hprev with hw | he
    · simpa using good_of_wf tr ht hw
    · rw [he.1]
      intro e he'
      simp at he'
  have hcount_size : ht.table.countP (fun e => !tr.isUnoccupied e) = ht.size := by
    rcases hprev with hw | he
    · exact hw.size_eq.symm
    · rw [he.1, he.2]
      rfl
  have hbound : (0 : Nat) + ht.table.countP (fun e => !tr.isUnoccupied e)
      < (List.replicate newCap tr.unoccupied).length := by
    rw [hinit_len, hcount_size]
    rcases hprev with hw | he
    · have := hw.size_lt
      omega
    · rw [he.2]
      omega
  obtain ⟨h1, h2, h3, _, _, h6⟩ :=
    insertList_spec tr ht.table { table := List.replicate newCap tr.unoccupied, size := 0 } []
      hinit_wf (fun p hp hpo => absurd hpo (hinit_occ p)) hpw hgood hbound
  have hrw : rehashHT tr ht newCap
      = insertList tr { table := List.replicate newCap tr.unoccupied, size := 0 } ht.table := by
    rw [rehashHT, if_neg (by omega)]
  rw [hrw]
  refine ⟨h1, by rw [h2, hinit_len], by rw [h3, hcount_size]; simp, ?_⟩
  intro k hk
  obtain ⟨j, hj, hocc, heq⟩ := hk
  have hmem : ht.table.getD j tr.unoccupied ∈ ht.table := by
    rw [List.getD_eq_getElem _ _ hj]
    exact List.getElem_mem hj
  obtain ⟨p, hp, hpv⟩ := h6 _ hmem hocc
  exact ⟨p, hp, by rw [slotOcc, hpv]; exact hocc, by rw [hpv]; exact heq⟩

theorem toTableCapacity_pow (cap : Nat) : ∃ m, toTableCapacity 64 cap = 2 ^ m := by
  rw [toTableCapacity]
  split
  · exact ⟨6, rfl⟩
  · exact ⟨Nat.size (cap - 1), rfl⟩

theorem le_toTableCapacity (cap : Nat) : cap ≤ toTableCapacity 64 cap := by
  rw [toTableCapacity]
  split
  · omega
  · have := Nat.lt_size_self (cap - 1)
    omega

theorem min_le_toTableCapacity (cap : Nat) : 64 ≤ toTableCapacity 64 cap := by
  rw [toTableCapacity]
  split
  · omega
  · have := Nat.lt_size_self (cap - 1)
    omega

/-- The `lookup_entry`/`create` insertion on a well-formed table with room:
the table stays well formed, the key becomes present, present keys stay. -/
theorem insertStep_spec {α : Type} (tr : HashTraits α) (ht : HashTable α) (k : α)
    (hcong : HashCongr tr)
    (hsymm : ∀ a b, tr.isEq a b = tr.isEq b a)
    (hk1 : tr.isUnoccupied k = false) (hk2 : tr.isEq k k = true)
    (hwf : TableWF tr ht) (hsz : ht.size + 1 < ht.table.length) :
    TableWF tr (insertStep tr ht k)
      ∧ present tr (insertStep tr ht k) k
      ∧ (∀ v, present tr ht v → present tr (insertStep tr ht k) v) := by
  obtain ⟨m, hm⟩ := hwf.cap_pow
  obtain ⟨j, b, hres⟩ := lookupEntry_some tr ht k hwf
  cases b with
  | true =>
    have hstep : insertStep tr ht k = ht := by
      rw [insertStep, hres]
    rw [hstep]
    exact ⟨hwf, foundIn_present tr ht k hm ⟨j, hres⟩, fun v hv => hv⟩
  | false =>
    have hno1 : ∀ j2 < ht.table.length, slotOcc tr ht.table j2 →
        tr.isEq (ht.table.getD j2 tr.unoccupied) k = false := by
      intro j2 hj2 hj2o
      cases hh : tr.isEq (ht.table.getD j2 tr.unoccupied) k with
      | false => rfl
      | true =>
        have hpres : present tr ht k := ⟨j2, hj2, hj2o, hh⟩
        obtain ⟨j', hres'⟩ := present_found tr ht k hwf hcong hpres
        rw [hres] at hres'
        have := Option.some.inj hres'
        have hbt : (false : Bool) = true := congrArg Prod.snd this
        simp at hbt
    have hno2 : ∀ j2 < ht.table.length, slotOcc tr ht.table j2 →
        tr.isEq k (ht.table.getD j2 tr.unoccupied) = false := by
      intro j2 hj2 hj2o
      rw [hsymm]
      exact hno1 j2 hj2 hj2o
    obtain ⟨hwf', hlen', _, hkeep', hnew', _⟩ :=
      create_notfound tr ht k hm hwf hk1 hk2 hno1 hno2 j hres hsz
    have hstep : insertStep tr ht k = create ht j k := by
      rw [insertStep, hres]
    rw [hstep]
    refine ⟨hwf', ?_, present_mono tr ht (create ht j k) hkeep'⟩
    obtain ⟨p, hp, hpk⟩ := hnew'
    exact ⟨p, hp, by rw [slotOcc, hpk]; exact hk1, by rw [hpk]; exact hk2⟩

/-- The full caller-side insertion step: after the `should_rehash`-gated
rehash, a `lookup_entry`/`create` insertion keeps the table well formed, the
key present, and every present key present. -/
theorem insertOp_spec {α : Type} (tr : HashTraits α) (ht : HashTable α) (k : α)
    (hu : tr.isUnoccupied tr.unoccupied = true)
    (hcong : HashCongr tr)
    (hsymm : ∀ a b, tr.isEq a b = tr.isEq b a)
    (hk1 : tr.isUnoccupied k = false) (hk2 : tr.isEq k k = true)
    (hwf0 : TableWF tr ht ∨ (ht.table = [] ∧ ht.size = 0)) :
    TableWF tr (insertOp tr 64 ht k)
      ∧ present tr (insertOp tr 64 ht k) k
      ∧ (∀ v, present tr ht v → present tr (insertOp tr 64 ht k) v) := by
  -- step 1: the optional rehash
  by_cases hsr : shouldRehash ht = true
  · obtain ⟨q, hq⟩ := toTableCapacity_pow (2 * ht.table.length)
    have hgrow : ht.table.length < toTableCapacity 64 (2 * ht.table.length) := by
      rcases hwf0 with hw | he
      · obtain ⟨m, hm⟩ := hw.cap_pow
        have hle := le_toTableCapacity (2 * ht.table.length)
        have : 0 < ht.table.length := by rw [hm]; exact Nat.pos_pow_of_pos m (by omega)
        omega
      · have h64 := min_le_toTableCapacity (2 * ht.table.length)
        have hlen0 : ht.table.length = 0 := by rw [he.1]; rfl
        omega
    obtain ⟨hwf1, hlen1, hsize1, hpres1⟩ :=
      rehash_spec tr ht (toTableCapacity 64 (2 * ht.table.length)) hq hu hgrow hwf0
    have hsz1 : (rehashHT tr ht (toTableCapacity 64 (2 * ht.table.length))).size + 1
        < (rehashHT tr ht (toTableCapacity 64 (2 * ht.table.length))).table.length := by
      rw [hlen1, hsize1]
      rcases hwf0 with hw | he
      · have := hw.size_lt
        omega
      · rw [he.2]
        have := min_le_toTableCapacity (2 * ht.table.length)
        omega
    obtain ⟨hstep1, hstep2, hstep3⟩ :=
      insertStep_spec tr (rehashHT tr ht (toTableCapacity 64 (2 * ht.table.length))) k
        hcong hsymm hk1 hk2 hwf1 hsz1
    rw [insertOp, if_pos hsr]
    exact ⟨hstep1, hstep2, fun v hv => hstep3 v (hpres1 v hv)⟩
  · have hwf : TableWF tr ht := by
      rcases hwf0 with hw | he
      · exact hw
      · exfalso
        apply hsr
        rw [shouldRehash, he.1, he.2]
        simp
    have hsz1 : ht.size + 1 < ht.table.length := by
      obtain ⟨m, hm⟩ := hwf.cap_pow
      have hpos : 0 < ht.table.length := by rw [hm]; exact Nat.pos_pow_of_pos m (by omega)
      have hlt : ¬ (ht.table.length / 2 ≤ ht.size) := by
        intro hh
        exact hsr (by rw [shouldRehash]; simpa using hh)
      omega
    obtain ⟨hstep1, hstep2, hstep3⟩ := insertStep_spec tr ht k hcong hsymm hk1 hk2 hwf hsz1
    rw [insertOp, if_neg hsr]
    exact ⟨hstep1, hstep2, hstep3⟩

theorem natBeq_comm (a b : Nat) : (a == b) = (b == a) := by
  by_cases h : a = b
  · rw [h]
  · have h1 : (a == b) = false := by simpa using h
    have h2 : (b == a) = false := by simpa using fun hh => h hh.symm
    rw [h1, h2]

theorem foldl_insertOp_inv {α : Type} (tr : HashTraits α)
    (hu : tr.isUnoccupied tr.unoccupied = true)
    (hcong : HashCongr tr)
    (hsymm : ∀ a b, tr.isEq a b = tr.isEq b a) :
    ∀ (ks : List α) (acc : HashTable α),
      (∀ k ∈ ks, tr.isUnoccupied k = false ∧ tr.isEq k k = true) →
      (TableWF tr acc ∨ (acc.table = [] ∧ acc.size = 0)) →
      (∀ v, present tr acc v → present tr (ks.foldl (insertOp tr 64) acc) v)
        ∧ (∀ k ∈ ks, present tr (ks.foldl (insertOp tr 64) acc) k)
        ∧ (TableWF tr acc → TableWF tr (ks.foldl (insertOp tr 64) acc))
        ∧ (ks ≠ [] → TableWF tr (ks.foldl (insertOp tr 64) acc))
  | [], acc, _, _ =>
    ⟨fun _ hv => hv, fun k hk => absurd hk (List.not_mem_nil k), fun hw => hw,
      fun hne => absurd rfl hne⟩
  | k :: ks, acc, hkeys, hwf0 => by
    have hk := hkeys k (by simp)
    obtain ⟨hwA, hwB, hwC⟩ := insertOp_spec tr acc k hu hcong hsymm hk.1 hk.2 hwf0
    have hkeys' : ∀ x ∈ ks, tr.isUnoccupied x = false ∧ tr.isEq x x = true :=
      fun x hx => hkeys x (List.mem_cons_of_mem _ hx)
    obtain ⟨rA, rB, rC, _⟩ :=
      foldl_insertOp_inv tr hu hcong hsymm ks (insertOp tr 64 acc k) hkeys' (Or.inl hwA)
    rw [List.foldl_cons]
    refine ⟨fun v hv => rA v (hwC v hv), ?_, fun _ => rC hwA, fun _ => rC hwA⟩
    intro x hx
    rcases List.mem_cons.mp hx with hx | hx
    · rw [hx]
      exact rA k hwB
    · exact rB x hx

end Dryad

namespace Dryad

/-- C5: for every sequence of insertions at the documented call pattern
(rehash to the doubled, power-of-two-rounded capacity whenever
`should_rehash()` holds, then `lookup_entry`/`create`), starting from a
default-constructed table, the invariant `size() < capacity()` holds after
every step, and every previously inserted key is found by `lookup_entry`.
The traits hypotheses are the contract every in-tree instantiation
satisfies: the unoccupied fill value classifies as unoccupied, keys are
never unoccupied-valued, `is_equal` is reflexive on keys and symmetric, and
equal values hash equally. -/
theorem hash_insert_sequence {α : Type} (tr : HashTraits α) (ks : List α)
    (hu : tr.isUnoccupied tr.unoccupied = true)
    (hcong : HashCongr tr)
    (hsymm : ∀ a b, tr.isEq a b = tr.isEq b a)
    (hkeys : ∀ k ∈ ks, tr.isUnoccupied k = false ∧ tr.isEq k k = true) :
    ∀ n, 0 < n → n ≤ ks.length →
      (insertSeq tr (ks.take n)).size < (insertSeq tr (ks.take n)).table.length
        ∧ ∀ k ∈ ks.take n, foundIn tr (insertSeq tr (ks.take n)) k := by
  intro n hn hnle
  have hkeys' : ∀ k ∈ ks.take n, tr.isUnoccupied k = false ∧ tr.isEq k k = true :=
    fun k hk => hkeys k (List.take_subset n ks hk)
  have hne : ks.take n ≠ [] := by
    intro hh
    have hlen := congrArg List.length hh
    rw [List.length_take] at hlen
    simp only [List.length_nil] at hlen
    omega
  obtain ⟨_, hb, _, hd⟩ :=
    foldl_insertOp_inv tr hu hcong hsymm (ks.take n) emptyHT hkeys' (Or.inr ⟨rfl, rfl⟩)
  have hwf := hd hne
  exact ⟨hwf.size_lt, fun k hk => present_found tr _ k hwf hcong (hb k hk)⟩

/-- Witness for C5 with the node-pointer traits: inserting three distinct
8-aligned "pointers" (the first two colliding on the same probe start), the
load invariant holds and all three keys are found. -/
theorem hash_insert_sequence_witness :
    (0 : Nat) < 3 ∧ (3 : Nat) ≤ ([512, 1024, 520] : List Nat).length
      ∧ ((insertSeq nodeTraits (([512, 1024, 520] : List Nat).take 3)).size
          < (insertSeq nodeTraits (([512, 1024, 520] : List Nat).take 3)).table.length)
      ∧ foundIn nodeTraits (insertSeq nodeTraits (([512, 1024, 520] : List Nat).take 3)) 512
      ∧ foundIn nodeTraits (insertSeq nodeTraits (([512, 1024, 520] : List Nat).take 3)) 1024
      ∧ foundIn nodeTraits (insertSeq nodeTraits (([512, 1024, 520] : List Nat).take 3)) 520 := by
  have h := hash_insert_sequence nodeTraits [512, 1024, 520] (by decide)
    (fun a b hab => by
      have : a = b := by simpa [nodeTraits] using hab
      rw [this])
    (fun a b => natBeq_comm a b)
    (by decide)
    3 (by decide) (by decide)
  exact ⟨by decide, by decide, h.1, h.2 512 (by decide), h.2 1024 (by decide),
    h.2 520 (by decide)⟩

end Dryad

namespace Dryad

/-- C4 (counterexample): with the node-pointer traits, insert the keys 512
and 1024 (both probing from slot 0 of the 64-slot table); 512 lands in slot
0 and 1024 in slot 1. Removing 512 writes the removed fill into slot 0 —
a value distinct from the unoccupied fill — yet a subsequent `lookup_entry`
for 1024 stops at slot 0 with a not-found handle, although slot 1 still
holds 1024: the probe does not pass through the removed slot. -/
theorem remove_breaks_probe_chain :
    lookupEntry nodeTraits (insertSeq nodeTraits [512, 1024]) 512 = some (0, true)
      ∧ lookupEntry nodeTraits (insertSeq nodeTraits [512, 1024]) 1024 = some (1, true)
      ∧ (removeAt nodeTraits (insertSeq nodeTraits [512, 1024]) 0).table.getD 1
          nodeTraits.unoccupied = 1024
      ∧ (removeAt nodeTraits (insertSeq nodeTraits [512, 1024]) 0).table.getD 0
          nodeTraits.unoccupied = nodeTraits.removed
      ∧ nodeTraits.removed ≠ nodeTraits.unoccupied
      ∧ lookupEntry nodeTraits (removeAt nodeTraits (insertSeq nodeTraits [512, 1024]) 0) 1024
          = some (0, false) := by
  refine ⟨by decide, by decide, by decide, by decide, by decide, by decide⟩

/-- C4 (amended): `remove` overwrites the slot with the `fill_removed`
value and drops the size; in both concrete traits the removed fill is a bit
pattern distinct from the unoccupied fill, but `is_unoccupied` classifies
it as unoccupied, so probe sequences stop at a removed slot instead of
skipping over it. -/
theorem remove_marks_unoccupied {α : Type} (tr : HashTraits α) (ht : HashTable α)
    (idx : Nat) (h : idx < ht.table.length) :
    (removeAt tr ht idx).table.getD idx tr.unoccupied = tr.removed
      ∧ (removeAt tr ht idx).table.length = ht.table.length
      ∧ (removeAt tr ht idx).size = ht.size - 1
      ∧ nodeTraits.removed ≠ nodeTraits.unoccupied
      ∧ nodeTraits.isUnoccupied nodeTraits.removed = true
      ∧ symbolTraits.removed ≠ symbolTraits.unoccupied
      ∧ symbolTraits.isUnoccupied symbolTraits.removed = true := by
  exact ⟨getD_set_self ht.table idx tr.removed tr.unoccupied h, by simp [removeAt], rfl,
    by decide, by decide, by decide, by decide⟩

/-- Witness for the amended C4: removing slot 0 of the concrete two-key
table marks it with the removed fill, which the node traits classify as
unoccupied. -/
theorem remove_marks_unoccupied_witness :
    (0 : Nat) < (insertSeq nodeTraits [512, 1024]).table.length
      ∧ (removeAt nodeTraits (insertSeq nodeTraits [512, 1024]) 0).table.getD 0
          nodeTraits.unoccupied = nodeTraits.removed
      ∧ nodeTraits.isUnoccupied nodeTraits.removed = true := by
  have h := remove_marks_unoccupied nodeTraits (insertSeq nodeTraits [512, 1024]) 0 (by decide)
  exact ⟨by decide, h.1, h.2.2.2.2.1⟩

/-- C9 (counterexample): after inserting 512, 1024 and 520 the occupied
slots of the 64-slot table read `[512, 1024, 520]` in slot order, but after
the growth rehash to capacity 128 (exactly the capacity
`to_table_capacity(2 * capacity)` requests) they read `[1024, 512, 520]`:
re-insertion hashes into the new capacity, and the relative slot order of
512 and 1024 is inverted. -/
theorem rehash_reorders_entries :
    ((insertSeq nodeTraits [512, 1024, 520]).table.filter
        (fun e => !nodeTraits.isUnoccupied e)) = [512, 1024, 520]
      ∧ ((rehashHT nodeTraits (insertSeq nodeTraits [512, 1024, 520]) 128).table.filter
        (fun e => !nodeTraits.isUnoccupied e)) = [1024, 512, 520]
      ∧ toTableCapacity 64 (2 * (insertSeq nodeTraits [512, 1024, 520]).table.length) = 128 := by
  refine ⟨by decide, by decide, ?_⟩
  have hlen : (insertSeq nodeTraits [512, 1024, 520]).table.length = 64 := by decide
  rw [hlen, toTableCapacity, if_neg (by omega)]
  have h1 : Nat.size (2 * 64 - 1) ≤ 7 := Nat.size_le.mpr (by decide)
  have h2 : 6 < Nat.size (2 * 64 - 1) := Nat.lt_size.mpr (by decide)
  have h7 : Nat.size (2 * 64 - 1) = 7 := by omega
  rw [h7]
  decide

/-- C9 (amended): `rehash` into a strictly larger power-of-two capacity
builds a fresh table of exactly the requested capacity and re-inserts every
occupied entry: the result is well formed, the size is unchanged, and every
previously present key is again found by `lookup_entry` — but the relative
slot order of the occupied entries is not in general preserved. -/
theorem rehash_grows_and_reinserts {α : Type} (tr : HashTraits α) (ht : HashTable α)
    (newCap q : Nat) (hq : newCap = 2 ^ q)
    (hu : tr.isUnoccupied tr.unoccupied = true)
    (hgrow : ht.table.length < newCap)
    (hwf : TableWF tr ht) (hcong : HashCongr tr) :
    (rehashHT tr ht newCap).table.length = newCap
      ∧ TableWF tr (rehashHT tr ht newCap)
      ∧ (rehashHT tr ht newCap).size = ht.size
      ∧ ∀ k, present tr ht k → foundIn tr (rehashHT tr ht newCap) k := by
  obtain ⟨hw, hlen, hsz, hpres⟩ := rehash_spec tr ht newCap hq hu hgrow (Or.inl hwf)
  exact ⟨hlen, hw, hsz, fun k hk => present_found tr _ k hw hcong (hpres k hk)⟩

/-- Witness for the amended C9: rehashing the concrete three-key table to
capacity 128 keeps the size and still finds 512. -/
theorem rehash_grows_and_reinserts_witness :
    (rehashHT nodeTraits (insertSeq nodeTraits [512, 1024, 520]) 128).table.length = 128
      ∧ (rehashHT nodeTraits (insertSeq nodeTraits [512, 1024, 520]) 128).size
          = (insertSeq nodeTraits [512, 1024, 520]).size
      ∧ foundIn nodeTraits (rehashHT nodeTraits (insertSeq nodeTraits [512, 1024, 520]) 128)
          512 := by
  have hcong : HashCongr nodeTraits := fun a b hab => by
    have hab' : a = b := by simpa [nodeTraits] using hab
    rw [hab']
  have hinv := foldl_insertOp_inv nodeTraits (by decide) hcong (fun a b => natBeq_comm a b)
    [512, 1024, 520] emptyHT (by decide) (Or.inr ⟨rfl, rfl⟩)
  have hwf : TableWF nodeTraits (insertSeq nodeTraits [512, 1024, 520]) :=
    hinv.2.2.2 (by decide)
  have hp : present nodeTraits (insertSeq nodeTraits [512, 1024, 520]) 512 :=
    hinv.2.1 512 (by decide)
  have h := rehash_grows_and_reinserts nodeTraits (insertSeq nodeTraits [512, 1024, 520])
    128 7 (by decide) (by decide) (by decide) hwf hcong
  exact ⟨h.1, h.2.2.1, h.2.2.2 512 hp⟩

end Dryad

namespace Dryad

/-- C10: on a `node_map` with zero occupied entries, `contains` is false and
`lookup` null for every key; on an empty `symbol_table`, `lookup` and
`remove` return the default `DeclRef` (and leave the table unchanged); and
`hash_table::lookup` itself guards with null. All the guards fire before
any probing, so the results hold for every backing table — in particular
for a freshly constructed map of capacity zero. -/
theorem empty_map_guards {δ : Type} (dflt : δ) (nm : NodeMap δ) (st : SymbolTable δ)
    (hnm : nm.ht.size = 0) (hst : st.ht.size = 0) :
    (∀ k, nmContains nm k = false)
      ∧ (∀ k, nmLookup nm k = none)
      ∧ (∀ s, stLookup dflt st s = dflt)
      ∧ (∀ s, stRemove dflt st s = (dflt, st))
      ∧ (∀ tr : HashTraits Nat, ∀ k, lookupHT tr nm.ht k = none) := by
  refine ⟨fun k => by simp [nmContains, hnm],
    fun k => by simp [nmLookup, hnm],
    fun s => by simp [stLookup, hst],
    fun s => by simp [stRemove, hst],
    fun tr k => by simp [lookupHT, hnm]⟩

/-- Witness for C10: the freshly constructed map and table (capacity zero)
answer false, null and the default declaration. -/
theorem empty_map_guards_witness :
    ((⟨emptyHT, []⟩ : NodeMap Nat)).ht.size = 0
      ∧ nmContains (⟨emptyHT, []⟩ : NodeMap Nat) 512 = false
      ∧ nmLookup (⟨emptyHT, []⟩ : NodeMap Nat) 512 = none
      ∧ stLookup 0 (⟨emptyHT, []⟩ : SymbolTable Nat) 3 = 0
      ∧ stRemove 0 (⟨emptyHT, []⟩ : SymbolTable Nat) 3 = (0, ⟨emptyHT, []⟩) := by
  have h := empty_map_guards 0 (⟨emptyHT, []⟩ : NodeMap Nat) (⟨emptyHT, []⟩ : SymbolTable Nat)
    rfl rfl
  exact ⟨rfl, h.1 512, h.2.1 512, h.2.2.1 3, h.2.2.2.1 3⟩

end Dryad

namespace Dryad

theorem chainNext_append_self : ∀ (xs : List Nat) (x : Nat), x ∉ xs →
    chainNext (xs ++ [x]) x = none
  | [], _, _ => rfl
  | y :: ys, x, hx => by
    have hxy : ¬ y = x := by
      intro h
      exact hx (by rw [← h]; exact List.mem_cons_self y ys)
    have hx' : x ∉ ys := fun hm => hx (List.mem_cons_of_mem y hm)
    cases ys with
    | nil =>
      show chainNext (y :: [x]) x = none
      simp only [chainNext]
      rw [if_neg hxy]
    | cons z zs =>
      show chainNext (y :: ((z :: zs) ++ [x])) x = none
      simp only [List.cons_append, chainNext]
      rw [if_neg hxy]
      exact chainNext_append_self (z :: zs) x hx'

theorem chainNext_append_last : ∀ (xs : List Nat) (b nid : Nat), b ∈ xs →
    chainNext xs b = none → chainNext (xs ++ [nid]) b = some nid
  | [], b, _, hb, _ => absurd hb (List.not_mem_nil b)
  | [x], b, nid, hb, _ => by
    have hbx : b = x := by simpa using hb
    show chainNext (x :: [nid]) b = some nid
    simp only [chainNext]
    rw [if_pos hbx.symm]
  | x :: y :: rest, b, nid, hb, hn => by
    simp only [chainNext] at hn
    by_cases hxb : x = b
    · rw [if_pos hxb] at hn
      exact absurd hn (by simp)
    · rw [if_neg hxb] at hn
      have hb' : b ∈ y :: rest := by
        rcases List.mem_cons.mp hb with h | h
        · exact absurd h.symm hxb
        · exact h
      show chainNext (x :: ((y :: rest) ++ [nid])) b = some nid
      simp only [List.cons_append, chainNext]
      rw [if_neg hxb]
      exact chainNext_append_last (y :: rest) b nid hb' hn

theorem chainNext_range_aux : ∀ (l s k : Nat), k + 1 < l →
    chainNext (List.range' s l) (s + k) = some (s + k + 1)
  | 0, _, _, h => absurd h (by omega)
  | 1, _, _, h => absurd h (by omega)
  | l + 2, s, k, h => by
    rw [List.range'_succ, List.range'_succ]
    simp only [chainNext]
    by_cases hk : k = 0
    · subst hk
      rw [if_pos (by omega)]
    · rw [if_neg (by omega)]
      have hrec := chainNext_range_aux (l + 1) (s + 1) (k - 1) (by omega)
      rw [List.range'_succ] at hrec
      have he : s + 1 + (k - 1) = s + k := by omega
      rw [he] at hrec
      exact hrec

theorem chainNext_range_mem (M k : Nat) (h : k + 1 < M) :
    chainNext (List.range M) k = some (k + 1) := by
  rw [List.range_eq_range']
  have := chainNext_range_aux M 0 k h
  simpa using this

theorem chainNext_range_last (L : Nat) (hL : 0 < L) :
    chainNext (List.range L) (L - 1) = none := by
  obtain ⟨K, rfl⟩ : ∃ K, L = K + 1 := ⟨L - 1, by omega⟩
  rw [List.range_succ, show K + 1 - 1 = K from rfl]
  exact chainNext_append_self (List.range K) K (by simp)

theorem alignOffset_zero (a : Nat) : alignOffset 0 a = 0 := by
  simp [alignOffset]

theorem allocSeq_chain_mono : ∀ (ops : List (Nat × Nat)) (ar : Arena) (b pos : Nat),
    ar.cur = some (b, pos) → ar.chain.length ≤ (allocSeq ar ops).1.chain.length
  | [], _, _, _, _ => le_refl _
  | (size, align) :: ops, ar, b, pos, hc => by
    simp only [allocSeq, allocate, hc]
    by_cases hg : alignOffset pos align + size > blockSize - pos
    · rw [if_pos hg]
      cases hcn : chainNext ar.chain b with
      | some n =>
        simp only [hcn]
        exact allocSeq_chain_mono ops { ar with cur := some (n, size) } n size rfl
      | none =>
        simp only [hcn]
        have hrec := allocSeq_chain_mono ops
          ⟨ar.chain ++ [ar.nextId], ar.nextId + 1, some (ar.nextId, size)⟩ ar.nextId size rfl
        calc ar.chain.length ≤ (ar.chain ++ [ar.nextId]).length := by simp
          _ ≤ _ := hrec
    · rw [if_neg hg]
      exact allocSeq_chain_mono ops
        { ar with cur := some (b, pos + alignOffset pos align + size) } b _ rfl

theorem allocSeq_shape : ∀ (ops : List (Nat × Nat)) (L pos : Nat), 0 < L →
    ∃ L2 pos2, L ≤ L2 ∧ 0 < L2 ∧
      (allocSeq ⟨List.range L, L, some (L - 1, pos)⟩ ops).1
        = ⟨List.range L2, L2, some (L2 - 1, pos2)⟩
  | [], L, pos, hL => ⟨L, pos, le_refl L, hL, rfl⟩
  | (size, align) :: ops, L, pos, hL => by
    simp only [allocSeq, allocate]
    by_cases hg : alignOffset pos align + size > blockSize - pos
    · rw [if_pos hg]
      simp only [chainNext_range_last L hL]
      have hr : List.range L ++ [L] = List.range (L + 1) := by rw [List.range_succ]
      rw [hr]
      obtain ⟨L2, p2, h1, h2, h3⟩ := allocSeq_shape ops (L + 1) size (by omega)
      exact ⟨L2, p2, by omega, h2, h3⟩
    · rw [if_neg hg]
      exact allocSeq_shape ops L (pos + alignOffset pos align + size) hL

theorem allocSeq_replay : ∀ (ops : List (Nat × Nat)) (L M N pos : Nat),
    0 < L → L ≤ M →
    (allocSeq ⟨List.range L, L, some (L - 1, pos)⟩ ops).1.chain.length ≤ M →
    (allocSeq ⟨List.range M, N, some (L - 1, pos)⟩ ops).2
      = (allocSeq ⟨List.range L, L, some (L - 1, pos)⟩ ops).2
  | [], _, _, _, _, _, _, _ => rfl
  | (size, align) :: ops, L, M, N, pos, hL, hLM, hM => by
    simp only [allocSeq, allocate] at hM ⊢
    by_cases hg : alignOffset pos align + size > blockSize - pos
    · have hcl : chainNext (List.range L) (L - 1) = none := chainNext_range_last L hL
      simp only [if_pos hg, hcl] at hM ⊢
      have hmono := allocSeq_chain_mono ops
        ⟨List.range L ++ [L], L + 1, some (L, size)⟩ L size rfl
      have hlen : (List.range L ++ [L]).length = L + 1 := by simp
      rw [hlen] at hmono
      have hLM' : L < M := by
        rcases Nat.lt_or_ge L M with h | h
        · exact h
        · exact absurd (le_trans hmono hM) (by omega)
      have hcm : chainNext (List.range M) (L - 1) = some L := by
        rw [chainNext_range_mem M (L - 1) (by omega)]
        congr 1
        omega
      simp only [hcm]
      congr 1
      have hrec := allocSeq_replay ops (L + 1) M N size (by omega) (by omega)
        (by rw [List.range_succ]; exact hM)
      rw [List.range_succ] at hrec
      exact hrec
    · simp only [if_neg hg] at hM ⊢
      congr 1
      exact allocSeq_replay ops L M N (pos + alignOffset pos align + size) hL hLM hM

theorem allocate_after_unwind_top (ar : Arena) (b pos size align : Nat)
    (hcur : ar.cur = some (b, pos)) (hb : b ∈ ar.chain) :
    (allocate (unwind (allocate ar size align).1 (top ar)) size align).2
      = (allocate ar size align).2 := by
  simp only [allocate, top, unwind, hcur]
  by_cases hg : alignOffset pos align + size > blockSize - pos
  · simp only [if_pos hg]
    cases hcn : chainNext ar.chain b with
    | some n =>
      simp only [hcn]
    | none =>
      simp only [hcn, chainNext_append_last ar.chain b ar.nextId hb hcn]
  · simp only [if_neg hg]

theorem clear_cons (ch : List Nat) (ni : Nat) (c : Option (Nat × Nat)) (f : Nat)
    (t : List Nat) (h : ch = f :: t) : clear ⟨ch, ni, c⟩ = ⟨ch, ni, some (f, 0)⟩ := by
  subst h
  rfl

theorem clear_replay (ops : List (Nat × Nat))
    (hops : ∀ p ∈ ops, 0 < p.1 ∧ p.1 ≤ blockSize) :
    (allocSeq (clear (allocSeq ⟨[], 0, none⟩ ops).1) ops).2
      = (allocSeq ⟨[], 0, none⟩ ops).2 := by
  cases ops with
  | nil => rfl
  | cons op rest =>
    obtain ⟨size1, align1⟩ := op
    have h1 := hops (size1, align1) (by simp)
    simp only [allocSeq, allocate]
    rw [if_pos (show 0 + size1 > 0 by omega)]
    have hstate : (⟨[0], 0 + 1, some (0, size1)⟩ : Arena)
        = ⟨List.range 1, 1, some (1 - 1, size1)⟩ := rfl
    rw [hstate]
    obtain ⟨K1, p2, hle, hpos, hsh⟩ := allocSeq_shape rest 1 size1 (by omega)
    obtain ⟨K, rfl⟩ : ∃ K, K1 = K + 1 := ⟨K1 - 1, by omega⟩
    rw [hsh, clear_cons _ _ _ 0 _ (List.range_succ_eq_map K)]
    simp only [allocSeq, allocate]
    rw [if_neg (show ¬ alignOffset 0 align1 + size1 > blockSize - 0 by
      rw [alignOffset_zero]; omega)]
    simp only [alignOffset_zero]
    congr 1
    have hrec := allocSeq_replay rest 1 (K + 1) (K + 1) size1 (by omega) (by omega)
      (by rw [hsh]; simp)
    simpa using hrec

/-- C7 (amended): for a marker taken while the arena has a current block,
`allocate` after `unwind(top())` returns the same address as the
allocation that immediately followed the marker (the block chain is kept,
so the grow path lands on the same block); and `clear()` followed by the
same allocation sequence (sizes within `max_allocation_size`) reproduces
identical addresses. For the null marker of a freshly constructed arena
the reuse part fails: re-allocating after unwinding to it installs a
fresh first block at a new address. -/
theorem arena_unwind_clear_reuse (ar : Arena) (b pos size align : Nat)
    (hcur : ar.cur = some (b, pos)) (hb : b ∈ ar.chain)
    (ops : List (Nat × Nat)) (hops : ∀ p ∈ ops, 0 < p.1 ∧ p.1 ≤ blockSize) :
    (allocate (unwind (allocate ar size align).1 (top ar)) size align).2
        = (allocate ar size align).2
      ∧ (allocSeq (clear (allocSeq ⟨[], 0, none⟩ ops).1) ops).2
          = (allocSeq ⟨[], 0, none⟩ ops).2 :=
  ⟨allocate_after_unwind_top ar b pos size align hcur hb, clear_replay ops hops⟩

/-- Witness for the amended C7: a one-block arena, an allocation that
grows into a second block, unwind and re-allocate — same address; and a
three-allocation sequence (the second one block-filling) replayed after
`clear` returns the same three addresses. -/
theorem arena_unwind_clear_reuse_witness :
    ((⟨[0], 1, some (0, 8)⟩ : Arena).cur = some (0, 8))
      ∧ (allocate (unwind (allocate (⟨[0], 1, some (0, 8)⟩ : Arena) 16376 8).1
            (top (⟨[0], 1, some (0, 8)⟩ : Arena))) 16376 8).2
          = (allocate (⟨[0], 1, some (0, 8)⟩ : Arena) 16376 8).2
      ∧ (allocSeq (clear (allocSeq (⟨[], 0, none⟩ : Arena) [(8, 8), (16376, 8), (4, 4)]).1)
            [(8, 8), (16376, 8), (4, 4)]).2
          = (allocSeq (⟨[], 0, none⟩ : Arena) [(8, 8), (16376, 8), (4, 4)]).2 := by
  have h := arena_unwind_clear_reuse ⟨[0], 1, some (0, 8)⟩ 0 8 16376 8 rfl (by decide)
    [(8, 8), (16376, 8), (4, 4)] (by decide)
  exact ⟨rfl, h.1, h.2⟩

/-- C7 (counterexample): unwinding to the marker taken on a freshly
constructed arena (null `_cur_block`) and allocating again does not reuse
the address of the allocation that followed the marker: the first block
pointer is overwritten with a freshly allocated block (the code even
asserts this state cannot happen), so a different address comes back. -/
theorem arena_null_marker_no_reuse :
    (allocate (⟨[], 0, none⟩ : Arena) 8 8).2 = some (0, 0)
      ∧ (allocate (unwind (allocate (⟨[], 0, none⟩ : Arena) 8 8).1
          (top (⟨[], 0, none⟩ : Arena))) 8 8).2 = some (1, 0)
      ∧ (allocate (unwind (allocate (⟨[], 0, none⟩ : Arena) 8 8).1
          (top (⟨[], 0, none⟩ : Arena))) 8 8).2
        ≠ (allocate (⟨[], 0, none⟩ : Arena) 8 8).2 := by
  refine ⟨rfl, rfl, by decide⟩

end Dryad

namespace Dryad

set_option maxRecDepth 100000 in
/-- C8 (code bug): `lookup_entry`'s found branch returns
`&_table[table_idx]` — the initial probe slot, which the loop never
advances — instead of the entry where the match was found, contradicting
its own comment ("returns a pointer to its index"). With the strings "op"
(bytes 111 112) and "tm" (bytes 116 109), whose hashes share the start
slot 10 of the 1024-slot table: interning "op" yields index 0, interning
"tm" yields index 3, but interning "tm" a second time probes past "op",
matches "tm" at the next slot, then reads the start slot and returns
"op"'s symbol 0 — equal content yields unequal symbols, and the returned
symbol compares equal to a different string's symbol. -/
theorem intern_collision_wrong_symbol :
    (intern emptyInterner [111, 112] 2).2 = 0
      ∧ (intern (intern emptyInterner [111, 112] 2).1 [116, 109] 2).2 = 3
      ∧ (intern (intern (intern emptyInterner [111, 112] 2).1 [116, 109] 2).1
            [116, 109] 2).2
          = (intern emptyInterner [111, 112] 2).2
      ∧ (intern (intern (intern emptyInterner [111, 112] 2).1 [116, 109] 2).1
            [116, 109] 2).2
          ≠ (intern (intern emptyInterner [111, 112] 2).1 [116, 109] 2).2 := by
  refine ⟨by decide, by decide, by decide, by decide⟩

end Dryad

namespace Dryad

mutual
theorem shapeEq_refl : ∀ t : BShape, shapeEq t t = true
  | BShape.mk k d c => by
    simp only [shapeEq]
    rw [shapeEqL_refl c]
    simp
theorem shapeEqL_refl : ∀ c : BList, shapeEqL c c = true
  | BList.nil => rfl
  | BList.cons t r => by
    simp only [shapeEqL]
    rw [shapeEq_refl t, shapeEqL_refl r]
    rfl
end

mutual
theorem shapeEq_symm : ∀ t u : BShape, shapeEq t u = shapeEq u t
  | BShape.mk k1 d1 c1, BShape.mk k2 d2 c2 => by
    simp only [shapeEq]
    rw [natBeq_comm k1 k2, natBeq_comm d1 d2, shapeEqL_symm c1 c2]
theorem shapeEqL_symm : ∀ c r : BList, shapeEqL c r = shapeEqL r c
  | BList.nil, BList.nil => rfl
  | BList.nil, BList.cons _ _ => rfl
  | BList.cons _ _, BList.nil => rfl
  | BList.cons t1 r1, BList.cons t2 r2 => by
    simp only [shapeEqL]
    rw [shapeEq_symm t1 t2, shapeEqL_symm r1 r2]
end

theorem chainNext_append_of_some : ∀ (xs ys : List Nat) (b n : Nat),
    chainNext xs b = some n → chainNext (xs ++ ys) b = some n
  | [], _, _, _, h => by simp [chainNext] at h
  | [x], _, b, _, h => by simp [chainNext] at h
  | x :: y :: rest, ys, b, n, h => by
    simp only [chainNext] at h
    by_cases hxb : x = b
    · rw [if_pos hxb] at h
      show chainNext (x :: ((y :: rest) ++ ys)) b = some n
      simp only [List.cons_append, chainNext]
      rw [if_pos hxb]
      exact h
    · rw [if_neg hxb] at h
      show chainNext (x :: ((y :: rest) ++ ys)) b = some n
      simp only [List.cons_append, chainNext]
      rw [if_neg hxb]
      exact chainNext_append_of_some (y :: rest) ys b n h

theorem chainNext_append_mid : ∀ (xs ys : List Nat) (b nid : Nat), b ∈ xs →
    chainNext xs b = none → chainNext (xs ++ nid :: ys) b = some nid
  | [], _, b, _, hb, _ => absurd hb (List.not_mem_nil b)
  | [x], ys, b, nid, hb, _ => by
    have hbx : b = x := by simpa using hb
    show chainNext (x :: nid :: ys) b = some nid
    simp only [chainNext]
    rw [if_pos hbx.symm]
  | x :: y :: rest, ys, b, nid, hb, hn => by
    simp only [chainNext] at hn
    by_cases hxb : x = b
    · rw [if_pos hxb] at hn
      exact absurd hn (by simp)
    · rw [if_neg hxb] at hn
      have hb' : b ∈ y :: rest := by
        rcases List.mem_cons.mp hb with h | h
        · exact absurd h.symm hxb
        · exact h
      show chainNext (x :: ((y :: rest) ++ nid :: ys)) b = some nid
      simp only [List.cons_append, chainNext]
      rw [if_neg hxb]
      exact chainNext_append_mid (y :: rest) ys b nid hb' hn

theorem allocSeq_extends : ∀ (ops : List (Nat × Nat)) (ar : Arena) (c : Nat × Nat),
    ar.cur = some c →
    (∃ ext, (allocSeq ar ops).1.chain = ar.chain ++ ext)
      ∧ ∃ c2, (allocSeq ar ops).1.cur = some c2
  | [], _, c, hc => ⟨⟨[], by simp [allocSeq]⟩, ⟨c, hc⟩⟩
  | (size, align) :: ops, ar, ⟨b, pos⟩, hc => by
    simp only [allocSeq, allocate, hc]
    by_cases hg : alignOffset pos align + size > blockSize - pos
    · simp only [if_pos hg]
      cases hcn : chainNext ar.chain b with
      | some n =>
        simp only [hcn]
        exact allocSeq_extends ops { ar with cur := some (n, size) } (n, size) rfl
      | none =>
        simp only [hcn]
        obtain ⟨⟨ext, hext⟩, hcur2⟩ := allocSeq_extends ops
          ⟨ar.chain ++ [ar.nextId], ar.nextId + 1, some (ar.nextId, size)⟩
          (ar.nextId, size) rfl
        refine ⟨⟨ar.nextId :: ext, ?_⟩, hcur2⟩
        rw [hext, List.append_assoc]
        rfl
    · simp only [if_neg hg]
      exact allocSeq_extends ops
        { ar with cur := some (b, pos + alignOffset pos align + size) } _ rfl

theorem allocate_after_unwind_rest (ar : Arena) (b pos size align : Nat)
    (rest : List (Nat × Nat)) (hcur : ar.cur = some (b, pos)) (hb : b ∈ ar.chain) :
    (allocate (unwind (allocSeq (allocate ar size align).1 rest).1 (top ar))
        size align).2
      = (allocate ar size align).2 := by
  simp only [allocate, top, unwind, hcur]
  by_cases hg : alignOffset pos align + size > blockSize - pos
  · simp only [if_pos hg]
    cases hcn : chainNext ar.chain b with
    | some n =>
      simp only [hcn]
      obtain ⟨⟨ext, hext⟩, _⟩ :=
        allocSeq_extends rest { ar with cur := some (n, size) } (n, size) rfl
      rw [hext, chainNext_append_of_some ar.chain ext b n hcn]
    | none =>
      simp only [hcn]
      obtain ⟨⟨ext, hext⟩, _⟩ := allocSeq_extends rest
        ⟨ar.chain ++ [ar.nextId], ar.nextId + 1, some (ar.nextId, size)⟩
        (ar.nextId, size) rfl
      rw [hext, List.append_assoc,
        show [ar.nextId] ++ ext = ar.nextId :: ext from rfl,
        chainNext_append_mid ar.chain ext b ar.nextId hb hcn]
  · simp only [if_neg hg]

end Dryad

namespace Dryad

theorem tablewf_agree {α : Type} (tr tr2 : HashTraits α) (ht : HashTable α)
    (hun : ∀ p, tr2.isUnoccupied p = tr.isUnoccupied p)
    (hud : tr2.unoccupied = tr.unoccupied)
    (hhash : ∀ j < ht.table.length, slotOcc tr ht.table j →
        tr2.hash (ht.table.getD j tr.unoccupied)
          = tr.hash (ht.table.getD j tr.unoccupied))
    (heqq : ∀ j1 < ht.table.length, ∀ j2 < ht.table.length,
        slotOcc tr ht.table j1 → slotOcc tr ht.table j2 →
        tr2.isEq (ht.table.getD j1 tr.unoccupied) (ht.table.getD j2 tr.unoccupied)
          = tr.isEq (ht.table.getD j1 tr.unoccupied) (ht.table.getD j2 tr.unoccupied))
    (hwf : TableWF tr ht) : TableWF tr2 ht := by
  have hocc : ∀ j, slotOcc tr2 ht.table j ↔ slotOcc tr ht.table j := by
    intro j
    rw [slotOcc, slotOcc, hud, hun]
  refine ⟨hwf.cap_pow, ?_, hwf.size_lt, ?_, ?_, ?_⟩
  · have hfun : (fun e => !tr2.isUnoccupied e) = (fun e => !tr.isUnoccupied e) := by
      funext e
      rw [hun]
    rw [hfun]
    exact hwf.size_eq
  · intro j hj hjo
    have hjo2 := (hocc j).mp hjo
    obtain ⟨d, hd, hjd, hpath⟩ := hwf.stored_path j hj hjo2
    refine ⟨d, hd, ?_, ?_⟩
    · rw [hud, hhash j hj hjo2]
      exact hjd
    · intro y hy
      rw [hud, hhash j hj hjo2]
      rw [slotOcc, hun, hud]
      exact hpath y hy
  · intro j hj hjo
    have hjo2 := (hocc j).mp hjo
    rw [hud, heqq j hj j hj hjo2 hjo2]
    exact hwf.refl_stored j hj hjo2
  · intro j1 hj1 j2 hj2 h1 h2 he
    have h1a := (hocc j1).mp h1
    have h2a := (hocc j2).mp h2
    rw [hud, heqq j1 hj1 j2 hj2 h1a h2a] at he
    exact hwf.distinct j1 hj1 j2 hj2 h1a h2a he

theorem buildTable_spec (hf : BShape → Nat) (f : Forest)
    (hwf0 : TableWF (forestTraits f.shapes hf) f.roots
      ∨ (f.roots.table = [] ∧ f.roots.size = 0)) :
    TableWF (forestTraits f.shapes hf) (buildTable hf f)
      ∧ (buildTable hf f).size + 1 < (buildTable hf f).table.length := by
  have hu : (forestTraits f.shapes hf).isUnoccupied
      (forestTraits f.shapes hf).unoccupied = true := rfl
  rw [buildTable]
  by_cases hsr : shouldRehash f.roots = true
  · rw [if_pos hsr]
    obtain ⟨q, hq⟩ := toTableCapacity_pow (2 * f.roots.table.length)
    have hgrow : f.roots.table.length
        < toTableCapacity 64 (2 * f.roots.table.length) := by
      rcases hwf0 with hw | he
      · obtain ⟨m, hm⟩ := hw.cap_pow
        have hle := le_toTableCapacity (2 * f.roots.table.length)
        have hpos : 0 < f.roots.table.length := by
          rw [hm]
          exact Nat.pos_pow_of_pos m (by omega)
        omega
      · have h64 := min_le_toTableCapacity (2 * f.roots.table.length)
        have hlen0 : f.roots.table.length = 0 := by rw [he.1]; rfl
        omega
    obtain ⟨hwf1, hlen1, hsize1, _⟩ :=
      rehash_spec (forestTraits f.shapes hf) f.roots
        (toTableCapacity 64 (2 * f.roots.table.length)) hq hu hgrow hwf0
    refine ⟨hwf1, ?_⟩
    rw [hlen1, hsize1]
    rcases hwf0 with hw | he
    · have h1 := hw.size_lt
      have hle := le_toTableCapacity (2 * f.roots.table.length)
      omega
    · rw [he.2]
      have := min_le_toTableCapacity (2 * f.roots.table.length)
      omega
  · rw [if_neg hsr]
    have hwf : TableWF (forestTraits f.shapes hf) f.roots := by
      rcases hwf0 with hw | he
      · exact hw
      · exfalso
        apply hsr
        rw [shouldRehash, he.1, he.2]
        simp
    refine ⟨hwf, ?_⟩
    obtain ⟨m, hm⟩ := hwf.cap_pow
    have hpos : 0 < f.roots.table.length := by
      rw [hm]
      exact Nat.pos_pow_of_pos m (by omega)
    have hlt : ¬ (f.roots.table.length / 2 ≤ f.roots.size) := by
      intro hh
      exact hsr (by rw [shouldRehash]; simpa using hh)
    omega

end Dryad

namespace Dryad

theorem extendShapes_self (sh : Nat → BShape) (root : Nat) (shape : BShape) :
    extendShapes sh root shape root = shape := by
  rw [extendShapes]
  simp

theorem extendShapes_other (sh : Nat → BShape) (root : Nat) (shape : BShape)
    (p : Nat) (h : p ≠ root) : extendShapes sh root shape p = sh p := by
  rw [extendShapes]
  simp [h]

/-- C6: `hash_forest::build`, given the table invariant, a live
arena block, a non-null candidate address and the memory-safety fact that
the freshly allocated candidate is at a different address from every
committed root. If some committed root is structurally equal
(`is_equal_base`) to the candidate's tree, build returns that committed
pointer — not the candidate — leaves the table and shapes unchanged, and
unwinds the arena to the marker so that the next allocation returns the
candidate root's address again. If no committed root is structurally
equal, build returns the fresh candidate address, distinct from every
committed pointer, commits it (present in a well-formed table), and keeps
the arena at its post-build position. -/
theorem hash_forest_build_interns (hf : BShape → Nat) (f : Forest)
    (s1 a1 : Nat) (rest : List (Nat × Nat)) (shape : BShape)
    (b pos ra1 ra2 : Nat)
    (hcong : ∀ x y, shapeEq x y = true → hf x = hf y)
    (hwf0 : TableWF (forestTraits f.shapes hf) f.roots
      ∨ (f.roots.table = [] ∧ f.roots.size = 0))
    (hcur : f.arena.cur = some (b, pos)) (hb : b ∈ f.arena.chain)
    (hra : (allocate f.arena s1 a1).2 = some (ra1, ra2))
    (hmax : addrOf (ra1, ra2) < 2 ^ 64 - 1)
    (hfresh : ∀ j < (buildTable hf f).table.length,
        slotOcc (forestTraits f.shapes hf) (buildTable hf f).table j →
        (buildTable hf f).table.getD j 0 ≠ addrOf (ra1, ra2)) :
    ((∃ j < (buildTable hf f).table.length,
        slotOcc (forestTraits f.shapes hf) (buildTable hf f).table j
          ∧ shapeEq (f.shapes ((buildTable hf f).table.getD j 0)) shape = true) →
      (∃ j < (buildTable hf f).table.length,
          slotOcc (forestTraits f.shapes hf) (buildTable hf f).table j
            ∧ (buildTable hf f).table.getD j 0
                = (build hf f ((s1, a1) :: rest) shape).2)
        ∧ shapeEq (f.shapes ((build hf f ((s1, a1) :: rest) shape).2)) shape = true
        ∧ (build hf f ((s1, a1) :: rest) shape).2 ≠ addrOf (ra1, ra2)
        ∧ (build hf f ((s1, a1) :: rest) shape).1.roots = buildTable hf f
        ∧ (build hf f ((s1, a1) :: rest) shape).1.shapes = f.shapes
        ∧ (build hf f ((s1, a1) :: rest) shape).1.arena
            = unwind (allocSeq (allocate f.arena s1 a1).1 rest).1 (top f.arena)
        ∧ (allocate (build hf f ((s1, a1) :: rest) shape).1.arena s1 a1).2
            = some (ra1, ra2))
    ∧ ((∀ j < (buildTable hf f).table.length,
          slotOcc (forestTraits f.shapes hf) (buildTable hf f).table j →
          shapeEq (f.shapes ((buildTable hf f).table.getD j 0)) shape = false) →
      (build hf f ((s1, a1) :: rest) shape).2 = addrOf (ra1, ra2)
        ∧ (∀ j < (buildTable hf f).table.length,
            slotOcc (forestTraits f.shapes hf) (buildTable hf f).table j →
            (buildTable hf f).table.getD j 0
              ≠ (build hf f ((s1, a1) :: rest) shape).2)
        ∧ present
            (forestTraits (extendShapes f.shapes (addrOf (ra1, ra2)) shape) hf)
            (build hf f ((s1, a1) :: rest) shape).1.roots (addrOf (ra1, ra2))
        ∧ TableWF
            (forestTraits (extendShapes f.shapes (addrOf (ra1, ra2)) shape) hf)
            (build hf f ((s1, a1) :: rest) shape).1.roots
        ∧ (build hf f ((s1, a1) :: rest) shape).1.shapes
            = extendShapes f.shapes (addrOf (ra1, ra2)) shape
        ∧ (build hf f ((s1, a1) :: rest) shape).1.arena
            = (allocSeq (allocate f.arena s1 a1).1 rest).1) := by
  obtain ⟨hwf1, hsz1⟩ := buildTable_spec hf f hwf0
  obtain ⟨m, hm⟩ := hwf1.cap_pow
  have hpos : 0 < (buildTable hf f).table.length := by
    rw [hm]
    exact Nat.pos_pow_of_pos m (by omega)
  have hwf2 : TableWF (forestTraits (extendShapes f.shapes (addrOf (ra1, ra2)) shape) hf)
      (buildTable hf f) := by
    refine tablewf_agree (forestTraits f.shapes hf) _ _ (fun p => rfl) rfl ?_ ?_ hwf1
    · intro j hj hjo
      have hne := hfresh j hj hjo
      show hf (extendShapes f.shapes (addrOf (ra1, ra2)) shape
          ((buildTable hf f).table.getD j 0)) = hf (f.shapes ((buildTable hf f).table.getD j 0))
      simp only [extendShapes]
      rw [if_neg hne]
    · intro j1 hj1 j2 hj2 h1 h2
      have hne1 := hfresh j1 hj1 h1
      have hne2 := hfresh j2 hj2 h2
      show shapeEq (extendShapes f.shapes (addrOf (ra1, ra2)) shape
            ((buildTable hf f).table.getD j1 0))
          (extendShapes f.shapes (addrOf (ra1, ra2)) shape
            ((buildTable hf f).table.getD j2 0))
        = shapeEq (f.shapes ((buildTable hf f).table.getD j1 0))
            (f.shapes ((buildTable hf f).table.getD j2 0))
      simp only [extendShapes]
      rw [if_neg hne1, if_neg hne2]
  have hcong2 : HashCongr (forestTraits (extendShapes f.shapes (addrOf (ra1, ra2)) shape) hf) :=
    fun a c hac => hcong _ _ hac
  constructor
  · intro hA
    obtain ⟨j, hj, hjo, hjeq⟩ := hA
    have hpres : present (forestTraits (extendShapes f.shapes (addrOf (ra1, ra2)) shape) hf)
        (buildTable hf f) (addrOf (ra1, ra2)) := by
      refine ⟨j, hj, hjo, ?_⟩
      have hne := hfresh j hj hjo
      show shapeEq (extendShapes f.shapes (addrOf (ra1, ra2)) shape
            ((buildTable hf f).table.getD j 0))
          (extendShapes f.shapes (addrOf (ra1, ra2)) shape (addrOf (ra1, ra2))) = true
      rw [extendShapes_other _ _ _ _ hne, extendShapes_self]
      exact hjeq
    obtain ⟨j2, hfound⟩ := present_found _ _ _ hwf2 hcong2 hpres
    obtain ⟨d, hdlen, hjd, _, hstop, hbv⟩ :=
      lookupEntry_inv _ (buildTable hf f) (addrOf (ra1, ra2)) hm j2 true hfound
    have hocc2 : (forestTraits (extendShapes f.shapes (addrOf (ra1, ra2)) shape) hf).isUnoccupied
        ((buildTable hf f).table.getD j2
          (forestTraits (extendShapes f.shapes (addrOf (ra1, ra2)) shape) hf).unoccupied)
        = false := by
      cases hh : (forestTraits (extendShapes f.shapes (addrOf (ra1, ra2)) shape) hf).isUnoccupied
          ((buildTable hf f).table.getD j2
            (forestTraits (extendShapes f.shapes (addrOf (ra1, ra2)) shape) hf).unoccupied) with
      | false => rfl
      | true => rw [hh] at hbv; simp at hbv
    have hj2len : j2 < (buildTable hf f).table.length := by
      rw [hjd]
      exact probeAt_lt _ _ hpos
    have heq2 : (forestTraits (extendShapes f.shapes (addrOf (ra1, ra2)) shape) hf).isEq
        ((buildTable hf f).table.getD j2
          (forestTraits (extendShapes f.shapes (addrOf (ra1, ra2)) shape) hf).unoccupied)
        (addrOf (ra1, ra2)) = true := by
      rcases hstop with hs | hs
      · rw [hs] at hocc2
        simp at hocc2
      · exact hs
    have hv_ne : (buildTable hf f).table.getD j2 0 ≠ addrOf (ra1, ra2) :=
      hfresh j2 hj2len hocc2
    have hveq : shapeEq (f.shapes ((buildTable hf f).table.getD j2 0)) shape = true := by
      have h2 : shapeEq (extendShapes f.shapes (addrOf (ra1, ra2)) shape
            ((buildTable hf f).table.getD j2 0))
          (extendShapes f.shapes (addrOf (ra1, ra2)) shape (addrOf (ra1, ra2))) = true := heq2
      rw [extendShapes_other _ _ _ _ hv_ne, extendShapes_self] at h2
      exact h2
    have hbuild : build hf f ((s1, a1) :: rest) shape
        = ({ arena := unwind (allocSeq (allocate f.arena s1 a1).1 rest).1 (top f.arena),
             shapes := f.shapes, roots := buildTable hf f },
           (buildTable hf f).table.getD j2 0) := by
      simp only [build, hra, hfound]
    refine ⟨⟨j2, hj2len, hocc2, by rw [hbuild]⟩, ?_, ?_, ?_, ?_, ?_, ?_⟩
    · rw [hbuild]
      exact hveq
    · rw [hbuild]
      exact hv_ne
    · rw [hbuild]
    · rw [hbuild]
    · rw [hbuild]
    · rw [hbuild]
      rw [allocate_after_unwind_rest f.arena b pos s1 a1 rest hcur hb]
      exact hra
  · intro hB
    have hnp : ¬ present (forestTraits (extendShapes f.shapes (addrOf (ra1, ra2)) shape) hf)
        (buildTable hf f) (addrOf (ra1, ra2)) := by
      rintro ⟨j, hj, hjo, hje⟩
      have hne := hfresh j hj hjo
      have h2 : shapeEq (extendShapes f.shapes (addrOf (ra1, ra2)) shape
            ((buildTable hf f).table.getD j 0))
          (extendShapes f.shapes (addrOf (ra1, ra2)) shape (addrOf (ra1, ra2))) = true := hje
      rw [extendShapes_other _ _ _ _ hne, extendShapes_self] at h2
      have h3 := hB j hj hjo
      rw [h3] at h2
      exact Bool.false_ne_true h2
    obtain ⟨j, bb, hres⟩ :=
      lookupEntry_some _ (buildTable hf f) (addrOf (ra1, ra2)) hwf2
    cases bb with
    | true =>
      exact absurd (foundIn_present _ _ _ hm ⟨j, hres⟩) hnp
    | false =>
      have hno1 : ∀ j2 < (buildTable hf f).table.length,
          slotOcc (forestTraits (extendShapes f.shapes (addrOf (ra1, ra2)) shape) hf)
            (buildTable hf f).table j2 →
          (forestTraits (extendShapes f.shapes (addrOf (ra1, ra2)) shape) hf).isEq
            ((buildTable hf f).table.getD j2
              (forestTraits (extendShapes f.shapes (addrOf (ra1, ra2)) shape) hf).unoccupied)
            (addrOf (ra1, ra2)) = false := by
        intro j2 hj2 hj2o
        cases hh : (forestTraits (extendShapes f.shapes (addrOf (ra1, ra2)) shape) hf).isEq
            ((buildTable hf f).table.getD j2
              (forestTraits (extendShapes f.shapes (addrOf (ra1, ra2)) shape) hf).unoccupied)
            (addrOf (ra1, ra2)) with
        | false => rfl
        | true => exact absurd ⟨j2, hj2, hj2o, hh⟩ hnp
      have hno2 : ∀ j2 < (buildTable hf f).table.length,
          slotOcc (forestTraits (extendShapes f.shapes (addrOf (ra1, ra2)) shape) hf)
            (buildTable hf f).table j2 →
          (forestTraits (extendShapes f.shapes (addrOf (ra1, ra2)) shape) hf).isEq
            (addrOf (ra1, ra2))
            ((buildTable hf f).table.getD j2
              (forestTraits (extendShapes f.shapes (addrOf (ra1, ra2)) shape) hf).unoccupied)
            = false := by
        intro j2 hj2 hj2o
        have h1 := hno1 j2 hj2 hj2o
        show shapeEq (extendShapes f.shapes (addrOf (ra1, ra2)) shape (addrOf (ra1, ra2)))
            (extendShapes f.shapes (addrOf (ra1, ra2)) shape
              ((buildTable hf f).table.getD j2 0)) = false
        rw [shapeEq_symm]
        exact h1
      have hge : 2 ^ 20 ≤ addrOf (ra1, ra2) := by
        show 2 ^ 20 ≤ (ra1 + 1) * 2 ^ 20 + ra2
        have h1 : 1 * 2 ^ 20 ≤ (ra1 + 1) * 2 ^ 20 :=
          Nat.mul_le_mul_right _ (by omega)
        omega
      have hk1 : (forestTraits (extendShapes f.shapes (addrOf (ra1, ra2)) shape) hf).isUnoccupied
          (addrOf (ra1, ra2)) = false := by
        show (addrOf (ra1, ra2) == 0 || addrOf (ra1, ra2) == 2 ^ 64 - 1) = false
        have h0 : addrOf (ra1, ra2) ≠ 0 := by omega
        have hM : addrOf (ra1, ra2) ≠ 2 ^ 64 - 1 := by omega
        have hM2 : addrOf (ra1, ra2) ≠ 18446744073709551615 := hM
        simp [h0, hM2]
      have hk2 : (forestTraits (extendShapes f.shapes (addrOf (ra1, ra2)) shape) hf).isEq
          (addrOf (ra1, ra2)) (addrOf (ra1, ra2)) = true := by
        show shapeEq (extendShapes f.shapes (addrOf (ra1, ra2)) shape (addrOf (ra1, ra2)))
            (extendShapes f.shapes (addrOf (ra1, ra2)) shape (addrOf (ra1, ra2))) = true
        rw [extendShapes_self]
        exact shapeEq_refl shape
      obtain ⟨hwfC, hlenC, hsizeC, _, hnewC, _⟩ :=
        create_notfound _ (buildTable hf f) (addrOf (ra1, ra2)) hm hwf2 hk1 hk2
          hno1 hno2 j hres hsz1
      have hbuild : build hf f ((s1, a1) :: rest) shape
          = ({ arena := (allocSeq (allocate f.arena s1 a1).1 rest).1,
               shapes := extendShapes f.shapes (addrOf (ra1, ra2)) shape,
               roots := create (buildTable hf f) j (addrOf (ra1, ra2)) },
             addrOf (ra1, ra2)) := by
        simp only [build, hra, hres]
      refine ⟨by rw [hbuild], ?_, ?_, ?_, ?_, ?_⟩
      · intro j2 hj2 hj2o
        rw [hbuild]
        exact hfresh j2 hj2 hj2o
      · rw [hbuild]
        obtain ⟨p, hp, hpk⟩ := hnewC
        exact ⟨p, hp, by rw [slotOcc, hpk]; exact hk1, by rw [hpk]; exact hk2⟩
      · rw [hbuild]
        exact hwfC
      · rw [hbuild]
      · rw [hbuild]

end Dryad

namespace Dryad

/-- Witness for C6: a forest with one arena block and an empty root table;
building a single-node tree (kind 1, data 2) commits it: the returned
pointer is the candidate's address, the arena stays at its post-build
position, and the new root is present in the table. -/
theorem hash_forest_build_interns_witness :
    (build (fun _ => 0)
        ⟨⟨[0], 1, some (0, 8)⟩, fun _ => BShape.mk 0 0 BList.nil, emptyHT⟩
        [(8, 8)] (BShape.mk 1 2 BList.nil)).2 = addrOf (0, 8)
      ∧ (build (fun _ => 0)
          ⟨⟨[0], 1, some (0, 8)⟩, fun _ => BShape.mk 0 0 BList.nil, emptyHT⟩
          [(8, 8)] (BShape.mk 1 2 BList.nil)).1.arena
        = (allocSeq (allocate ⟨[0], 1, some (0, 8)⟩ 8 8).1 []).1
      ∧ present
          (forestTraits (extendShapes (fun _ => BShape.mk 0 0 BList.nil) (addrOf (0, 8))
            (BShape.mk 1 2 BList.nil)) (fun _ => 0))
          (build (fun _ => 0)
            ⟨⟨[0], 1, some (0, 8)⟩, fun _ => BShape.mk 0 0 BList.nil, emptyHT⟩
            [(8, 8)] (BShape.mk 1 2 BList.nil)).1.roots (addrOf (0, 8)) := by
  have h := hash_forest_build_interns (fun _ => 0)
    ⟨⟨[0], 1, some (0, 8)⟩, fun _ => BShape.mk 0 0 BList.nil, emptyHT⟩
    8 8 [] (BShape.mk 1 2 BList.nil) 0 8 0 8
    (fun x y _ => rfl)
    (Or.inr ⟨rfl, rfl⟩)
    rfl
    (by decide)
    (by decide)
    (by decide)
    (by decide)
  have hB := h.2 (by decide)
  exact ⟨hB.1, hB.2.2.2.2.2, hB.2.2.1⟩

end Dryad
